import Mathlib

/-!
Verification development for the gsb backup manager
(history model, backup engine, history query engine, history-rewrite engine).

The Python modules `gsb/history.py`, `gsb/backup.py` and `gsb/fastforward.py`
are embedded shallowly over an explicit repository state.  The version-control
substrate (`gsb/_git.py`) is an external collaborator whose current interface
(`show`, `reset`, `checkout_branch`, `delete_branch`, `delete_tag`, tag/commit
provenance flags) is not part of the checked-in `_git.py` (that file is a stale
revision that lacks these functions); those primitives are therefore modelled
from the specification's interface contract (section 6) and carry a
`Modelled from the spec:` note in their doc strings.

Conventions:
- machine state (`Repo`) is threaded explicitly; every fallible operation
  returns `Except PyErr α × Repo` (the state at the moment the exception is
  raised is returned alongside the error, mirroring Python exception flow);
- commit hashes are strings generated from a fresh counter; the first eight
  characters determine the hash (mirroring git's short-identifier behaviour);
- wall-clock readings are modelled by a monotone counter `Repo.clock`.
-/

namespace Gsb

/-- Python exception classes that the embedded code distinguishes. -/
inductive PyErr where
  | valueError (msg : String)
  | notImplError (msg : String)
  | osError (msg : String)
  | nameError
  | typeError
  | injected (k : Nat)
deriving DecidableEq, Repr

/-- `except ValueError` matches exactly this class. -/
def PyErr.isValueError : PyErr → Bool
  | .valueError _ => true
  | _ => false

/-- A point-in-time content snapshot: file name to file content, kept sorted
by name so that equal mappings are equal lists. -/
abbrev Tree : Type := List (String × String)

/-- Strict lexicographic comparison of character lists (the order Python's
`sorted` and git's name ordering use for ASCII names). -/
def charsLt : List Char → List Char → Bool
  | [], [] => false
  | [], _ :: _ => true
  | _ :: _, [] => false
  | a :: as, b :: bs =>
      if a.toNat < b.toNat then true
      else if b.toNat < a.toNat then false
      else charsLt as bs

/-- Strict lexicographic comparison of strings. -/
def strLt (s t : String) : Bool := charsLt s.data t.data

/-- Stable insertion into a sorted list: `x` goes after every element it is
not strictly below. -/
def insertLt {α : Type} (lt : α → α → Bool) (x : α) : List α → List α
  | [] => [x]
  | y :: ys => if lt x y then x :: y :: ys else y :: insertLt lt x ys

/-- Stable sort by a strict comparison (kernel-computable). -/
def sortLt {α : Type} (lt : α → α → Bool) (l : List α) : List α :=
  l.foldl (fun acc x => insertLt lt x acc) []

/-- Canonical form of a file listing (sort by file name; inputs are kept
duplicate-free by construction). -/
def Tree.make (files : List (String × String)) : Tree :=
  sortLt (fun a b => strLt a.1 b.1) files

/-- File lookup within a tree. -/
def Tree.file (t : Tree) (name : String) : Option String :=
  (List.find? (fun e => e.1 = name) t).map (fun e => e.2)

/-- Lower-case hash characters. -/
def hChar (k : Nat) : Char := Char.ofNat (97 + k % 26)

/-- Little-endian base-26 digit expansion of width `w`, as characters. -/
def hDigits : Nat → Nat → List Char
  | 0, _ => []
  | w + 1, n => hChar n :: hDigits w (n / 26)

/-- Fixed 32-character tail so that generated hashes are longer than the
8-character short form, like real 40-character git hashes. -/
def hashTail : List Char := List.replicate 32 'f'

/-- The full hash string minted for the `n`-th object created in a repo. -/
def hashStr (n : Nat) : String := String.mk (hDigits 8 n ++ hashTail)

/-- `s[:8]`: the short identifier of a full hash (history.py line 104). -/
def shortHash (s : String) : String := String.mk (s.data.take 8)

/-- Python's falsy-`or` on an optional string (`a or b`). -/
def pyOr (a : Option String) (b : String) : String :=
  match a with
  | some s => if s = "" then b else s
  | none => b

/-- Python truthiness of an optional string (`if tag_message:`). -/
def pyTruthy : Option String → Bool
  | none => false
  | some s => ¬ s = ""

/-- `str.strip()`: trim ASCII whitespace from both ends. -/
def pyStrip (s : String) : String :=
  let ws : Char → Bool := fun c => c = ' ' || c = '\n' || c = '\t' || c = '\r'
  String.mk (((s.data.dropWhile ws).reverse.dropWhile ws).reverse)

/-- `git commit` normalises messages to end with a newline (_git.py). -/
def ensureNewline (s : String) : String :=
  if s.data.getLast? = some '\n' then s else s ++ "\n"

/-- Metadata of a stored commit object.
`gsb` records whether the committer was the system itself (history.py reads
this provenance flag off every commit). -/
structure CommitObj where
  parent : Option String
  message : String
  tree : Tree
  timestamp : Nat
  gsb : Bool
deriving DecidableEq, Repr

/-- A tag: named pointer at a commit.  `note` is the free-text tag message
(`none` for lightweight tags); `gsb` is the provenance flag (`none` when the
tag carries no tagger, i.e. lightweight). -/
structure TagObj where
  name : String
  note : Option String
  target : String
  gsb : Option Bool
deriving DecidableEq, Repr

/-- The on-disk repository state seen through the revision-store interface:
commit store (newest first), branch pointers, the checked-out branch, tags,
working tree, index/stage, the manifest's patterns, a wall clock and the
fresh-object counter. -/
structure Repo where
  commits : List (String × CommitObj)
  branches : List (String × String)
  headBranch : String
  tags : List TagObj
  worktree : Tree
  index : Tree
  patterns : List String
  clock : Nat
  counter : Nat
deriving DecidableEq, Repr

namespace Repo

/-- Commit-object lookup by full hash. -/
def commitAt (r : Repo) (h : String) : Option CommitObj :=
  (List.find? (fun e => e.1 = h) r.commits).map (fun e => e.2)

/-- Branch-pointer lookup. -/
def branchTarget (r : Repo) (name : String) : Option String :=
  (List.find? (fun e => e.1 = name) r.branches).map (fun e => e.2)

/-- The commit the checked-out branch points at (none while unborn). -/
def headTarget (r : Repo) : Option String :=
  r.branchTarget r.headBranch

/-- Move (or create) a branch pointer. -/
def setBranch (r : Repo) (name target : String) : Repo :=
  { r with branches := (name, target) :: r.branches.filter (fun e => ¬ e.1 = name) }

/-- Drop a branch pointer. -/
def dropBranch (r : Repo) (name : String) : Repo :=
  { r with branches := r.branches.filter (fun e => ¬ e.1 = name) }

/-- Whether a tag of this name exists. -/
def hasTag (r : Repo) (name : String) : Bool :=
  r.tags.any (fun t => t.name = name)

end Repo

/-- True when `p` is a leading segment of `s`. -/
def charsPfx (p s : List Char) : Bool := s.take p.length = p

/-- Resolve a reference string to a commit, the way `revparse_single` does for
the references this system passes around: an existing tag name resolves (and
peels) to its target; otherwise an exact full-hash match; otherwise a hash
abbreviation of at least 4 characters that matches exactly one commit.
Modelled from the spec: section 6 revision-store interface (the checked-in
`_git.py` is a stale revision without `show`). -/
def resolveRef (r : Repo) (ref : String) : Option (String × CommitObj) :=
  match r.tags.find? (fun t => t.name = ref) with
  | some t =>
      match r.commits.find? (fun e => e.1 = t.target) with
      | some e => some e
      | none => none
  | none =>
      match r.commits.find? (fun e => e.1 = ref) with
      | some e => some e
      | none =>
          if 4 ≤ ref.data.length then
            match r.commits.filter (fun e => charsPfx ref.data e.1.data) with
            | [e] => some e
            | _ => none
          else none

/-- Result of `_git.show`: either a plain commit or an (annotated) tag with
its peeled target.  Modelled from the spec: section 6 (`show` is absent from
the stale checked-in `_git.py`; `fastforward.py` consumes `Tag | Commit`). -/
inductive ShowResult where
  | commit (hash : String) (message : String) (timestamp : Nat)
  | tagRef (tag : TagObj) (targetHash : String) (targetMessage : String)
deriving DecidableEq, Repr

/-- `_git.show(repo_root, reference)`.  Tag objects win over commits, as with
`revparse_single`; an unresolvable reference raises `ValueError`.
Modelled from the spec: section 6 revision-store interface. -/
def gitShow (r : Repo) (ref : String) : Except PyErr ShowResult :=
  match r.tags.find? (fun t => t.name = ref) with
  | some t =>
      match r.commitAt t.target with
      | some c => .ok (.tagRef t t.target c.message)
      | none => .error (.valueError ("could not resolve " ++ ref))
  | none =>
      match resolveRef r ref with
      | some e => .ok (.commit e.1 e.2.message e.2.timestamp)
      | none => .error (.valueError ("could not resolve " ++ ref))

/-- `_git.commit(repo_root, message)`: commit the index onto the checked-out
branch.  Fails with the nothing-to-commit `ValueError` when the stage is
unchanged from its parent.  The committer is the system, so the provenance
flag is set.  Modelled from the spec: section 6
(`commit(root, message) -> Revision`, "fails with a nothing-to-commit
condition when the stage is unchanged from its parent"). -/
def gitCommit (r : Repo) (message : String) : Except PyErr String × Repo :=
  match r.headTarget with
  | some parentHash =>
      match r.commitAt parentHash with
      | some parentObj =>
          if r.index = parentObj.tree then
            (.error (.valueError "Nothing to commit"), r)
          else
            let h := hashStr r.counter
            let obj : CommitObj :=
              { parent := some parentHash, message := ensureNewline message,
                tree := r.index, timestamp := r.clock, gsb := true }
            (.ok h,
              { (r.setBranch r.headBranch h) with
                  commits := (h, obj) :: r.commits,
                  clock := r.clock + 1, counter := r.counter + 1 })
      | none => (.error (.osError "corrupt repository"), r)
  | none =>
      let h := hashStr r.counter
      let obj : CommitObj :=
        { parent := none, message := ensureNewline message,
          tree := r.index, timestamp := r.clock, gsb := true }
      (.ok h,
        { (r.setBranch r.headBranch h) with
            commits := (h, obj) :: r.commits,
            clock := r.clock + 1, counter := r.counter + 1 })

/-- `_git.tag(repo_root, name, annotation, target=None)`: create a tag at the
given target (default: current head).  Fails when the name already exists.
An annotated tag records the system as tagger (provenance `some true`);
a lightweight tag has no tagger (`none`).  Modelled from the spec: section 6
(`tag(root, name, annotation?, target?) -> Tag`, "fails if name already
exists"). -/
def gitTag (r : Repo) (name : String) (note : Option String)
    (target : Option String) : Except PyErr TagObj × Repo :=
  if r.hasTag name then
    (.error (.valueError ("tag " ++ name ++ " already exists")), r)
  else
    let targetRef : Option String :=
      match target with
      | some t => some t
      | none => r.headTarget
    match targetRef with
    | none => (.error (.osError "unborn HEAD"), r)
    | some t =>
        match resolveRef r t with
        | none => (.error (.valueError ("could not resolve " ++ t)), r)
        | some e =>
            let noteN := note.map ensureNewline
            let tg : TagObj :=
              { name := name, note := noteN, target := e.1,
                gsb := if noteN.isSome then some true else none }
            (.ok tg, { r with tags := r.tags ++ [tg] })

/-- `_git.delete_tag(repo_root, name)`: fails if no such tag.
Modelled from the spec: section 6 ("delete_tag(root, name) — fail if the name
does not exist"). -/
def gitDeleteTag (r : Repo) (name : String) : Except PyErr Unit × Repo :=
  if r.hasTag name then
    (.ok (), { r with tags := r.tags.filter (fun t => ¬ t.name = name) })
  else
    (.error (.valueError ("no such tag " ++ name)), r)

/-- `_git.delete_branch(repo_root, name)`: fails if no such branch or if the
branch is currently checked out.  Modelled from the spec: section 6
("delete_branch(root, name) — fail if the name does not exist"). -/
def gitDeleteBranch (r : Repo) (name : String) : Except PyErr Unit × Repo :=
  match r.branchTarget name with
  | none => (.error (.valueError ("no such branch " ++ name)), r)
  | some _ =>
      if r.headBranch = name then
        (.error (.valueError ("branch " ++ name ++ " is checked out")), r)
      else
        (.ok (), r.dropBranch name)

/-- `_git.checkout_branch(repo_root, name, start_point)`: with a start point,
create (or forcibly move) the branch there and check it out; with `none`,
check out the existing branch, or create it at the current head when it does
not exist yet.  Checking out replaces the working tree and index with the
branch target's tree.  Modelled from the spec: sections 4.4 and 6
("checkout_branch(root, name, start_point?) — move the working tree/index
and/or branch pointer"). -/
def gitCheckoutBranch (r : Repo) (name : String) (startPoint : Option String) :
    Except PyErr Unit × Repo :=
  match startPoint with
  | some sp =>
      match resolveRef r sp with
      | none => (.error (.valueError ("could not resolve " ++ sp)), r)
      | some e =>
          (.ok (),
            { (r.setBranch name e.1) with
                headBranch := name, worktree := e.2.tree, index := e.2.tree })
  | none =>
      match r.branchTarget name with
      | some t =>
          match r.commitAt t with
          | some c =>
              (.ok (), { r with headBranch := name, worktree := c.tree, index := c.tree })
          | none => (.error (.osError "corrupt repository"), r)
      | none =>
          match r.headTarget with
          | some h =>
              match r.commitAt h with
              | some c =>
                  (.ok (),
                    { (r.setBranch name h) with
                        headBranch := name, worktree := c.tree, index := c.tree })
              | none => (.error (.osError "corrupt repository"), r)
          | none => (.error (.valueError ("no such branch " ++ name)), r)

/-- `_git.reset(repo_root, target, hard)`: move the checked-out branch to the
target; a hard reset also replaces the working tree and index with the
target's tree, a soft reset leaves them alone.  Modelled from the spec:
section 6 ("reset(root, target, hard: bool) — move the working tree/index
and/or branch pointer"). -/
def gitReset (r : Repo) (target : String) (hard : Bool) : Except PyErr Unit × Repo :=
  match resolveRef r target with
  | none => (.error (.valueError ("could not resolve " ++ target)), r)
  | some e =>
      let r1 := r.setBranch r.headBranch e.1
      if hard then
        (.ok (), { r1 with worktree := e.2.tree, index := e.2.tree })
      else
        (.ok (), r1)

/-! ### The revision walk (`_git.log`) and the tag table (`_git.get_tags`) -/

/-- Walk the parent chain starting from a commit reference.  Fuel bounds the
walk; with the fuel used by `gitLog` it always suffices for well-formed
(acyclic) stores. -/
def chainFrom (cs : List (String × CommitObj)) :
    Option String → Nat → List (String × CommitObj)
  | _, 0 => []
  | none, _ => []
  | some h, fuel + 1 =>
      match cs.find? (fun e => e.1 = h) with
      | some e => e :: chainFrom cs e.2.parent fuel
      | none => []

/-- `_git.log(repo_root)`: all commits reachable from the current head,
newest first.  Modelled from the spec: section 6 ("log(root) — all revisions
reachable from current head, reverse-chronological"). -/
def gitLog (r : Repo) : List (String × CommitObj) :=
  chainFrom r.commits r.headTarget (r.commits.length + 1)

/-- `_git.get_tags(repo_root, annotated_only=True)`: the annotated tags,
sorted (tag names are unique, so sorting the tag tuples orders by name).
Modelled from the spec: section 6 (`get_tags(root, annotated_only)`). -/
def annotatedTagsSorted (r : Repo) : List TagObj :=
  sortLt (fun a b => strLt a.name b.name) (r.tags.filter (fun t => t.note.isSome))

/-- history.py line 82: `{tag.target: tag for tag in get_tags(...)}` followed
by `.get(commit)` — a dict built by insertion in sorted order, so a later tag
pointing at the same commit overwrites an earlier one. -/
def tagLookup (r : Repo) (h : String) : Option TagObj :=
  (annotatedTagsSorted r).foldl (fun acc t => if t.target = h then some t else acc) none

/-! ### history.py -/

/-- history.py `Revision`: metadata on a GSB-managed version. -/
structure Revision where
  identifier : String
  commitHash : String
  description : String
  timestamp : Nat
  tagged : Bool
  gsb : Bool
deriving DecidableEq, Repr

/-- The revision built for a tagged walk entry (history.py lines 96-99). -/
def revOfTagged (e : String × CommitObj) (tg : TagObj) : Revision :=
  { identifier := tg.name, commitHash := e.1,
    description := pyStrip (pyOr tg.note e.2.message),
    timestamp := e.2.timestamp, tagged := true, gsb := tg.gsb.getD e.2.gsb }

/-- The revision built for an untagged walk entry (history.py lines 103-106). -/
def revOfUntagged (e : String × CommitObj) : Revision :=
  { identifier := shortHash e.1, commitHash := e.1,
    description := pyStrip e.2.message,
    timestamp := e.2.timestamp, tagged := false, gsb := e.2.gsb }

/-- The loop body of `get_history` (history.py lines 88-118): walk the log,
stopping at the limit, at a commit older than `since`, or (when
`since_last_tagged_backup` is set) at the first annotated-tagged commit;
skip untagged commits when `tagged_only`, and unmanaged revisions unless
`include_non_gsb`; skipped commits do not count toward the limit. -/
def ghLoop (tagLk : String → Option TagObj) (taggedOnly includeNonGsb : Bool)
    (limit : Int) (since : Nat) (sinceLastTagged : Bool) :
    List (String × CommitObj) → Nat → List Revision
  | [], _ => []
  | e :: rest, n =>
      if (n : Int) = limit then []
      else if e.2.timestamp < since then []
      else
        match tagLk e.1 with
        | some tg =>
            if sinceLastTagged then []
            else if !includeNonGsb && !(tg.gsb.getD e.2.gsb) then
              ghLoop tagLk taggedOnly includeNonGsb limit since sinceLastTagged rest n
            else
              revOfTagged e tg ::
                ghLoop tagLk taggedOnly includeNonGsb limit since sinceLastTagged rest (n + 1)
        | none =>
            if taggedOnly then
              ghLoop tagLk taggedOnly includeNonGsb limit since sinceLastTagged rest n
            else if !includeNonGsb && !e.2.gsb then
              ghLoop tagLk taggedOnly includeNonGsb limit since sinceLastTagged rest n
            else
              revOfUntagged e ::
                ghLoop tagLk taggedOnly includeNonGsb limit since sinceLastTagged rest (n + 1)

/-- history.py `get_history`.  Defaults in the source are
`tagged_only=True, include_non_gsb=False, limit=-1, since=epoch,
since_last_tagged_backup=False`; `since` is the epoch offset (0 = epoch). -/
def getHistory (r : Repo) (taggedOnly includeNonGsb : Bool) (limit : Int)
    (since : Nat) (sinceLastTagged : Bool) : List Revision :=
  ghLoop (tagLookup r) taggedOnly includeNonGsb limit since sinceLastTagged (gitLog r) 0

/-! ### backup.py -/

/-- backup.py `REQUIRED_FILES`. -/
def requiredFiles : List String := [".gitignore", ".gsb_manifest"]

/-- `_git.add(repo_root, patterns)`: stage every working-tree path matching
the manifest patterns (including staging deletions of matching paths).
Pattern matching is modelled as literal file-name membership.
Modelled from the spec: section 6 ("stage(root, patterns) — add matching
paths to the pending snapshot"). -/
def stageAdd (r : Repo) (pats : List String) : Repo :=
  { r with
      index :=
        Tree.make
          ((r.index.filter (fun e => ¬ pats.contains e.1)) ++
            r.worktree.filter (fun e => pats.contains e.1)) }

/-- `_git.force_add(repo_root, files)` for one file: stage it even if
ignored; a missing path raises `FileNotFoundError`.  Modelled from the spec:
section 6 ("force_stage(root, paths)"). -/
def forceAddOne (r : Repo) (name : String) : Except PyErr Unit × Repo :=
  match r.worktree.find? (fun e => e.1 = name) with
  | some e =>
      (.ok (),
        { r with index := Tree.make ((r.index.filter (fun x => ¬ x.1 = name)) ++ [e]) })
  | none => (.error (.osError ("No such file or directory: " ++ name)), r)

/-- `_git.force_add` over the required files. -/
def forceAddFiles : Repo → List String → Except PyErr Unit × Repo
  | r, [] => (.ok (), r)
  | r, n :: rest =>
      match forceAddOne r n with
      | (.ok _, r1) => forceAddFiles r1 rest
      | (.error e, _) => (.error e, r)

/-- backup.py `_generate_tag_name`: a wall-clock-derived calver-ish name
("gsb%Y.%m.%d+%H%M%S"); here derived from the model clock. -/
def genTagName (r : Repo) : String := "gsb" ++ Nat.repr r.clock

/-- backup.py `create_backup(repo_root, tag_message, commit_message)`:
stage the manifest patterns plus the required files, commit (with the tag
message as commit message, or the fixed default — the `commit_message`
parameter is never read by the body), swallowing the nothing-to-commit
`ValueError` when a tag was requested, then tag the head when a tag message
was given.  Returns the tag name if tagged, else the commit hash. -/
def createBackup (r0 : Repo) (tagMessage commitMessage : Option String) :
    Except PyErr String × Repo :=
  match forceAddFiles (stageAdd r0 r0.patterns) requiredFiles with
  | (.error e, r2) => (.error e, r2)
  | (.ok _, r2) =>
      match gitCommit r2 (pyOr tagMessage "GSB-managed commit") with
      | (.ok h, r3) =>
          if pyTruthy tagMessage then
            match gitTag r3 (genTagName r3) tagMessage none with
            | (.ok tg, r4) => (.ok tg.name, r4)
            | (.error e, r4) => (.error e, r4)
          else (.ok h, r3)
      | (.error e, r3) =>
          if e.isValueError then
            if pyTruthy tagMessage then
              match gitTag r3 (genTagName r3) tagMessage none with
              | (.ok tg, r4) => (.ok tg.name, r4)
              | (.error e2, r4) => (.error e2, r4)
            else (.error e, r3)
          else (.error e, r3)

/-! ### fastforward.py — the history-rewrite engine

`rewrite_history` is a transactional state machine; to settle the rollback
claims, every primitive call inside its `try` body consumes one tick of a
step counter and an optional fault `some k` makes the `k`-th such step raise
a generic (non-`ValueError`) exception, while executing normally otherwise.
The `except`/`finally` handlers run the primitives' own semantics. -/

/-- Run one step of the `try` body: inject the scheduled fault or run the
primitive. -/
def fstep {α : Type} (fault : Option Nat) (k : Nat) (r : Repo)
    (prim : Repo → Except PyErr α × Repo) : Except PyErr α × Repo × Nat :=
  if fault = some k then (.error (.injected k), r, k + 1)
  else
    match prim r with
    | (res, r1) => (res, r1, k + 1)

/-- fastforward.py line 63: the uniquely-named temporary branch
("gsb_rebase_%Y.%m.%d+%H%M%S"), derived here from the model clock. -/
def tempBranchName (r : Repo) : String := "gsb_rebase." ++ Nat.repr r.clock

/-- `[_git.show(repo_root, revision) for revision in revisions]`. -/
def showAll : Repo → List String → Except PyErr (List ShowResult)
  | _, [] => .ok []
  | r, ref :: rest =>
      match gitShow r ref with
      | .ok sr =>
          match showAll r rest with
          | .ok srs => .ok (sr :: srs)
          | .error e => .error e
      | .error e => .error e

/-- fastforward.py lines 54-60: back up unsaved changes, swallowing the
nothing-to-commit `ValueError`.  Returns the appended show-result (if any)
and the binding of the local variable `head` (if assigned). -/
def snapshotPhase (r : Repo) : Except PyErr (Option ShowResult × Option String) × Repo :=
  match createBackup r none none with
  | (.ok h, r1) =>
      match gitShow r1 h with
      | .ok sr => (.ok (some sr, some h), r1)
      | .error e => if e.isValueError then (.ok (none, some h), r1) else (.error e, r1)
  | (.error e, r1) =>
      if e.isValueError then (.ok (none, none), r1) else (.error e, r1)

/-- The hash a replayed revision's tree is taken from (fastforward.py lines
70 and 80). -/
def replayTarget : ShowResult → String
  | .commit h _ _ => h
  | .tagRef _ tHash _ => tHash

/-- The replay commit message (fastforward.py lines 74-76 and 84-89). -/
def replayMessage : ShowResult → String
  | .commit h m _ => m ++ "\n\n" ++ "rebase of " ++ h
  | .tagRef tg tHash tMsg =>
      pyOr tg.note tg.name ++ "\n\n" ++ "rebase of " ++ tHash ++
        " (\"" ++ tMsg ++ "\")"

/-- fastforward.py lines 67-96: replay each survivor onto the temporary
branch (hard reset to the survivor's tree, soft reset to the previous head,
commit), deferring tag recreation.  Errors carry the Python `head` binding
at the moment of the raise. -/
def replayLoop (fault : Option Nat) :
    List ShowResult → String → List (TagObj × String) → Nat → Repo →
    Except (PyErr × String) (String × List (TagObj × String)) × Repo × Nat
  | [], head, acc, k, r => (.ok (head, acc), r, k)
  | sr :: rest, head, acc, k, r =>
      match fstep fault k r (fun r => gitReset r (replayTarget sr) true) with
      | (.error e, r1, k1) => (.error (e, head), r1, k1)
      | (.ok _, r1, k1) =>
          match fstep fault k1 r1 (fun r => gitReset r head false) with
          | (.error e, r2, k2) => (.error (e, head), r2, k2)
          | (.ok _, r2, k2) =>
              match fstep fault k2 r2 (fun r => gitCommit r (replayMessage sr)) with
              | (.error e, r3, k3) => (.error (e, head), r3, k3)
              | (.ok newHash, r3, k3) =>
                  match sr with
                  | .commit _ _ _ => replayLoop fault rest newHash acc k3 r3
                  | .tagRef tg _ _ =>
                      replayLoop fault rest newHash (acc ++ [(tg, newHash)]) k3 r3

/-- fastforward.py lines 97-99: delete each replayed original tag and
recreate it at its new commit. -/
def retagLoop (fault : Option Nat) :
    List (TagObj × String) → Nat → Repo → Except PyErr Unit × Repo × Nat
  | [], k, r => (.ok (), r, k)
  | (tg, target) :: rest, k, r =>
      match fstep fault k r (fun r => gitDeleteTag r tg.name) with
      | (.error e, r1, k1) => (.error e, r1, k1)
      | (.ok _, r1, k1) =>
          match fstep fault k1 r1 (fun r => gitTag r tg.name tg.note (some target)) with
          | (.error e, r2, k2) => (.error e, r2, k2)
          | (.ok _, r2, k2) => retagLoop fault rest k2 r2

/-- fastforward.py lines 100-108: delete the managed branch (recoverable
warning when that fails with `ValueError`) and re-create it at the new
head. -/
def finalizePhase (fault : Option Nat) (head : String) (k : Nat) (r : Repo) :
    Except PyErr String × Repo × Nat :=
  match fstep fault k r (fun r => gitDeleteBranch r "gsb") with
  | (.ok _, r1, k1) =>
      match fstep fault k1 r1 (fun r => gitCheckoutBranch r "gsb" (some head)) with
      | (.ok _, r2, k2) => (.ok head, r2, k2)
      | (.error e, r2, k2) => (.error e, r2, k2)
  | (.error e, r1, k1) =>
      if e.isValueError then
        match fstep fault k1 r1 (fun r => gitCheckoutBranch r "gsb" none) with
        | (.ok _, r2, k2) =>
            match fstep fault k2 r2 (fun r => gitCheckoutBranch r "gsb" (some head)) with
            | (.ok _, r3, k3) => (.ok head, r3, k3)
            | (.error e2, r3, k3) => (.error e2, r3, k3)
        | (.error e2, r2, k2) => (.error e2, r2, k2)
      else (.error e, r1, k1)

/-- The whole `try` body (fastforward.py lines 62-108).  Errors carry the
binding of the local `head` at the raise (`none`: still unbound). -/
def rewriteTryBody (fault : Option Nat) (startingPoint : String)
    (newHistory : List ShowResult) (branchName : String)
    (headBound : Option String) (r : Repo) :
    Except (PyErr × Option String) String × Repo :=
  match fstep fault 0 r (fun r => gitCheckoutBranch r branchName (some startingPoint)) with
  | (.error e, r1, _) => (.error (e, headBound), r1)
  | (.ok _, r1, k1) =>
      match replayLoop fault newHistory startingPoint [] k1 r1 with
      | (.error (e, head), r2, _) => (.error (e, some head), r2)
      | (.ok (head, tagsToUpdate), r2, k2) =>
          match retagLoop fault tagsToUpdate k2 r2 with
          | (.error e, r3, _) => (.error (e, some head), r3)
          | (.ok _, r3, k3) =>
              match finalizePhase fault head k3 r3 with
              | (.error e, r4, _) => (.error (e, some head), r4)
              | (.ok h, r4, _) => (.ok h, r4)

/-- The `finally` suite (fastforward.py lines 112-114): check the managed
branch back out and delete the temporary branch; an exception here replaces
the in-flight result, exactly as in Python. -/
def rewriteFinally (res : Except PyErr String) (branchName : String) (r : Repo) :
    Except PyErr String × Repo :=
  match gitCheckoutBranch r "gsb" none with
  | (.error e2, r1) => (.error e2, r1)
  | (.ok _, r1) =>
      match gitDeleteBranch r1 branchName with
      | (.error e3, r2) => (.error e3, r2)
      | (.ok _, r2) => (res, r2)

/-- The `except` handler (fastforward.py lines 109-111): hard-reset to the
last known-good head and re-raise; referencing a never-assigned `head`
raises `NameError`. -/
def rewriteHandler (e : PyErr) (headOpt : Option String) (branchName : String)
    (r : Repo) : Except PyErr String × Repo :=
  match headOpt with
  | none => rewriteFinally (.error .nameError) branchName r
  | some h =>
      match gitReset r h true with
      | (.ok _, r1) => rewriteFinally (.error e) branchName r1
      | (.error e2, r1) => rewriteFinally (.error e2) branchName r1

/-- fastforward.py `rewrite_history(repo_root, starting_point, *revisions)`:
validate the references, snapshot unsaved changes, then branch, replay,
retag and finalize, rolling back on failure. -/
def rewriteHistory (fault : Option Nat) (r0 : Repo) (startingPoint : String)
    (revisions : List String) : Except PyErr String × Repo :=
  match gitShow r0 startingPoint with
  | .error e => (.error e, r0)
  | .ok _ =>
      match showAll r0 revisions with
      | .error e => (.error e, r0)
      | .ok newHist0 =>
          match snapshotPhase r0 with
          | (.error e, r1) => (.error e, r1)
          | (.ok (snapOpt, headBound), r1) =>
              let newHistory :=
                match snapOpt with
                | some sr => newHist0 ++ [sr]
                | none => newHist0
              let branchName := tempBranchName r1
              match rewriteTryBody fault startingPoint newHistory branchName headBound r1 with
              | (.ok h, r2) => rewriteFinally (.ok h) branchName r2
              | (.error (e, headOpt), r2) => rewriteHandler e headOpt branchName r2

/-! ### fastforward.py — `delete_backups` -/

/-- The aggregate not-found message (fastforward.py lines 163-167). -/
def notFoundMsg (nf : List String) : String :=
  "Could not find the following backups:\n" ++
    String.intercalate "\n" (nf.map (fun t => "  - " ++ t)) ++
    "\nRun gsb history -ga to get a list of valid backup IDs."

instance : Inhabited Revision :=
  ⟨{ identifier := "", commitHash := "", description := "", timestamp := 0,
     tagged := false, gsb := false }⟩

/-- The matching loop of `delete_backups` (fastforward.py lines 150-161):
walk the full history oldest-first; a matched target is removed from the
not-found set, opening the gap at the revision just before the first match
(deleting the initial revision is rejected); once the gap is open every
unmatched revision is appended to the keep list.  Returns the leftover
not-found set and the keep list. -/
def delLoop (allRevs : List Revision) :
    List Revision → Nat → List String → List String →
    Except PyErr (List String × List String)
  | [], _, nf, keep => .ok (nf, keep)
  | rev :: rest, i, nf, keep =>
      if nf.contains rev.identifier then
        if keep.isEmpty then
          if i = 0 then
            .error (.notImplError "Deleting the initial backup is not currently supported.")
          else
            delLoop allRevs rest (i + 1) (nf.erase rev.identifier)
              (keep ++ [(allRevs.getD (allRevs.length - i) default).identifier])
        else
          delLoop allRevs rest (i + 1) (nf.erase rev.identifier) keep
      else
        if keep.isEmpty then
          delLoop allRevs rest (i + 1) nf keep
        else
          delLoop allRevs rest (i + 1) nf (keep ++ [rev.identifier])

/-- fastforward.py `delete_backups(repo_root, *revisions)`: resolve the full
unmanaged+untagged history, match the requested targets by identifier
(Python keeps them in a `set`, modelled by deduplication), abort with the
aggregate not-found error when any target is unmatched, and rewrite history
from the keep list. -/
def deleteBackups (fault : Option Nat) (r : Repo) (targets : List String) :
    Except PyErr String × Repo :=
  match delLoop (getHistory r false true (-1) 0 false)
      (getHistory r false true (-1) 0 false).reverse 0 targets.dedup [] with
  | .error e => (.error e, r)
  | .ok (nf, keep) =>
      if nf.isEmpty then
        match keep with
        | [] => (.error .typeError, r)
        | sp :: revs => rewriteHistory fault r sp revs
      else (.error (.valueError (notFoundMsg nf)), r)

/-! ### Building concrete timelines

Helper used by the theorems below to lay out repositories the way the
system itself does: commits minted from the fresh counter onto the
checked-out branch, timestamps from the monotone clock, optionally tagged. -/

/-- One backup in a laid-out timeline: its tree, commit message, committer
provenance and optional tag (name, message, tagger provenance). -/
structure BkSpec where
  tree : Tree
  message : String
  gsb : Bool
  tag : Option (String × Option String × Option Bool)
deriving DecidableEq, Repr

/-- Append one backup to a repo, the way the system's own commit/tag
primitives lay it down. -/
def addSpec (r : Repo) (s : BkSpec) : Repo :=
  let h := hashStr r.counter
  let obj : CommitObj :=
    { parent := r.headTarget, message := s.message, tree := Tree.make s.tree,
      timestamp := r.clock, gsb := s.gsb }
  let r1 :=
    { (r.setBranch r.headBranch h) with
        commits := (h, obj) :: r.commits, clock := r.clock + 1,
        counter := r.counter + 1 }
  match s.tag with
  | some (n, note, g) =>
      { r1 with tags := r1.tags ++ [{ name := n, note := note, target := h, gsb := g }] }
  | none => r1

/-- A repo with no commits, checked out on the managed branch. -/
def emptyRepo (pats : List String) : Repo :=
  { commits := [], branches := [], headBranch := "gsb", tags := [],
    worktree := [], index := [], patterns := pats, clock := 0, counter := 0 }

/-- Lay out a timeline (oldest backup first) and leave a clean checkout
(working tree and index at the head commit's tree). -/
def mkRepo (pats : List String) (specs : List BkSpec) : Repo :=
  let r := specs.foldl addSpec (emptyRepo pats)
  match r.headTarget.bind r.commitAt with
  | some c => { r with worktree := c.tree, index := c.tree }
  | none => r

/-- The two configuration files every managed tree carries. -/
def cfgFiles : Tree := [(".gitignore", "g"), (".gsb_manifest", "m")]

/-- A managed tree whose only payload file `f` holds `v`. -/
def trF (v : String) : Tree := cfgFiles ++ [("f", v)]

/-- A five-backup managed timeline: tagged v1, untagged, tagged v2,
untagged, tagged v3 (newest).  Mirrors the shape of the repository's own
test fixture. -/
def demo : Repo :=
  mkRepo ["f"]
    [ { tree := trF "0", message := "Started tracking with gsb", gsb := true,
        tag := some ("v1", some "start", some true) },
      { tree := trF "1", message := "Autocommit", gsb := true, tag := none },
      { tree := trF "2", message := "two", gsb := true,
        tag := some ("v2", some "second", some true) },
      { tree := trF "3", message := "Autocommit", gsb := true, tag := none },
      { tree := trF "4", message := "four", gsb := true,
        tag := some ("v3", some "third", some true) } ]

/-- Scenario D's timeline: a tagged revision followed by two untagged
ones (newest last here; the walk is newest first). -/
def demoD : Repo :=
  mkRepo ["f"]
    [ { tree := trF "0", message := "Started tracking with gsb", gsb := true,
        tag := some ("v1", some "start", some true) },
      { tree := trF "1", message := "Autocommit", gsb := true, tag := none },
      { tree := trF "2", message := "Autocommit", gsb := true, tag := none } ]

/-! ### Claim C7 — `since_last_tagged` returns the untagged tail -/

/-- The `get_history` walk with `since_last_tagged_backup` set, no limit, no
`since` cutoff and unmanaged revisions included is exactly the maximal
untagged head segment of the log. -/
theorem ghLoop_sinceLastTagged (tagLk : String → Option TagObj)
    (l : List (String × CommitObj)) (n : Nat) :
    ghLoop tagLk false true (-1) 0 true l n =
      (l.takeWhile (fun e => (tagLk e.1).isNone)).map revOfUntagged := by
  induction l generalizing n with
  | nil => simp [ghLoop]
  | cons e rest ih =>
      have h1 : ¬ ((n : Int) = (-1)) := by omega
      simp only [ghLoop, h1, if_false, Nat.not_lt_zero, List.takeWhile_cons]
      cases htag : tagLk e.1 with
      | some tg => simp [htag]
      | none => simp [htag, ih]

/-- C7: with `since_last_tagged` set, the walk stops before emitting the
first annotated-tagged commit, so the query returns exactly the untagged
tail newer than the most recent tagged revision; on Scenario D's timeline
`[tag:v1, c1, c2]` it returns `[c2, c1]` and excludes `v1`. -/
theorem getHistory_sinceLastTagged_untagged_tail :
    (∀ r : Repo,
        getHistory r false true (-1) 0 true =
          ((gitLog r).takeWhile (fun e => (tagLookup r e.1).isNone)).map revOfUntagged) ∧
    (getHistory demoD false false (-1) 0 true).map (fun v => v.identifier) =
      [shortHash (hashStr 2), shortHash (hashStr 1)] ∧
    (∀ v ∈ getHistory demoD false false (-1) 0 true, v.identifier ≠ "v1") := by
  refine ⟨fun r => ghLoop_sinceLastTagged (tagLookup r) (gitLog r) 0, by decide, by decide⟩

/-! ### Claim C8 — limit/since stopping and non-counting skips -/

/-- Which walk entries the history query keeps (the spec's wording of the
classification in section 4.3, used to compare against the loop from the
source). -/
def specQualifies (tagLk : String → Option TagObj) (taggedOnly includeNonGsb : Bool)
    (e : String × CommitObj) : Bool :=
  match tagLk e.1 with
  | some tg => includeNonGsb || tg.gsb.getD e.2.gsb
  | none => (¬ taggedOnly) && (includeNonGsb || e.2.gsb)

/-- The revision a kept walk entry is emitted as. -/
def specEmit (tagLk : String → Option TagObj) (e : String × CommitObj) : Revision :=
  match tagLk e.1 with
  | some tg => revOfTagged e tg
  | none => revOfUntagged e

/-- With no limit, the loop is: cut the walk at the first commit older than
`since`, keep the qualifying entries, emit each. -/
theorem ghLoop_noLimit (tagLk : String → Option TagObj) (taggedOnly includeNonGsb : Bool)
    (since : Nat) (l : List (String × CommitObj)) (n : Nat) :
    ghLoop tagLk taggedOnly includeNonGsb (-1) since false l n =
      ((l.takeWhile (fun e => ¬ e.2.timestamp < since)).filter
          (specQualifies tagLk taggedOnly includeNonGsb)).map (specEmit tagLk) := by
  induction l generalizing n with
  | nil => simp [ghLoop]
  | cons e rest ih =>
      have h1 : ¬ ((n : Int) = (-1)) := by omega
      by_cases hts : e.2.timestamp < since
      · simp [ghLoop, h1, hts]
      · have hts2 : since ≤ e.2.timestamp := Nat.le_of_not_lt hts
        cases htag : tagLk e.1 with
        | some tg =>
            cases hg : tg.gsb.getD e.2.gsb <;> cases hincl : includeNonGsb <;>
              simp only [hincl] at ih <;>
              simp [ghLoop, h1, hts, hts2, List.takeWhile_cons, htag, specQualifies,
                specEmit, ih, hg]
        | none =>
            cases hto : taggedOnly <;> cases hg : e.2.gsb <;> cases hincl : includeNonGsb <;>
              simp only [hto, hincl] at ih <;>
              simp [ghLoop, h1, hts, hts2, List.takeWhile_cons, htag, specQualifies,
                specEmit, ih, hg]

/-- A limited loop is the truncation of the unlimited loop: skipped commits
do not advance the emission count. -/
theorem ghLoop_limit_take (tagLk : String → Option TagObj)
    (taggedOnly includeNonGsb : Bool) (since : Nat) (m : Nat)
    (l : List (String × CommitObj)) (n : Nat) (hn : n ≤ m) :
    ghLoop tagLk taggedOnly includeNonGsb (m : Int) since false l n =
      (ghLoop tagLk taggedOnly includeNonGsb (-1) since false l n).take (m - n) := by
  induction l generalizing n with
  | nil => simp [ghLoop]
  | cons e rest ih =>
      have h1 : ¬ ((n : Int) = (-1)) := by omega
      by_cases hnm : n = m
      · have hlim : ((n : Int) = (m : Int)) := by omega
        have hz : m - n = 0 := by omega
        simp [ghLoop, hlim, hz]
      · have hlim : ¬ ((n : Int) = (m : Int)) := by omega
        by_cases hts : e.2.timestamp < since
        · simp [ghLoop, h1, hlim, hts]
        · have hsucc : m - n = (m - (n + 1)) + 1 := by omega
          cases htag : tagLk e.1 with
          | some tg =>
              cases hg : tg.gsb.getD e.2.gsb <;> cases hincl : includeNonGsb <;>
                simp only [hincl] at ih <;>
                simp [ghLoop, h1, hlim, hts, htag, hg, hsucc,
                  List.take_succ_cons, ih n (by omega), ih (n + 1) (by omega)]
          | none =>
              cases hto : taggedOnly <;> cases hg : e.2.gsb <;> cases hincl : includeNonGsb <;>
                simp only [hto, hincl] at ih <;>
                simp [ghLoop, h1, hlim, hts, htag, hg, hsucc,
                  List.take_succ_cons, ih n (by omega), ih (n + 1) (by omega)]

/-- C8: a limited query returns the first `n` entries of the unlimited
query — the walk stops exactly at `n` emissions or at the first commit whose
timestamp is older than `since`, and commits skipped by the tagged-only or
managed-only filters do not count toward the limit (the unlimited query
being the filtered cut of the walk at `since`), so the query returns the
`n` most recent qualifying revisions. -/
theorem getHistory_limit_since_stop (r : Repo) (taggedOnly includeNonGsb : Bool)
    (m : Nat) (since : Nat) :
    getHistory r taggedOnly includeNonGsb (m : Int) since false =
      (getHistory r taggedOnly includeNonGsb (-1) since false).take m ∧
    getHistory r taggedOnly includeNonGsb (-1) since false =
      (((gitLog r).takeWhile (fun e => ¬ e.2.timestamp < since)).filter
          (specQualifies (tagLookup r) taggedOnly includeNonGsb)).map
        (specEmit (tagLookup r)) := by
  constructor
  · have h := ghLoop_limit_take (tagLookup r) taggedOnly includeNonGsb since m (gitLog r) 0
      (Nat.zero_le m)
    simpa [getHistory] using h
  · exact ghLoop_noLimit (tagLookup r) taggedOnly includeNonGsb since (gitLog r) 0

/-! ### Claim C10 — `create_backup` never reads `commit_message` -/

theorem forceAddOne_modifies_only_index (r : Repo) (n : String) (res : Except PyErr Unit)
    (r2 : Repo) (h : forceAddOne r n = (res, r2)) :
    r2.commits = r.commits ∧ r2.counter = r.counter ∧ r2.headTarget = r.headTarget ∧
      r2.tags = r.tags ∧ r2.clock = r.clock ∧ r2.headBranch = r.headBranch ∧
      r2.branches = r.branches ∧ r2.worktree = r.worktree ∧ r2.patterns = r.patterns := by
  unfold forceAddOne at h
  cases hf : r.worktree.find? (fun e => e.1 = n) <;> rw [hf] at h <;>
    cases h <;> simp [Repo.headTarget, Repo.branchTarget]

theorem forceAddFiles_modifies_only_index (files : List String) :
    ∀ (r : Repo) (res : Except PyErr Unit) (r2 : Repo),
      forceAddFiles r files = (res, r2) →
      r2.commits = r.commits ∧ r2.counter = r.counter ∧ r2.headTarget = r.headTarget ∧
        r2.tags = r.tags ∧ r2.clock = r.clock ∧ r2.headBranch = r.headBranch ∧
        r2.branches = r.branches ∧ r2.worktree = r.worktree ∧ r2.patterns = r.patterns := by
  induction files with
  | nil =>
      intro r res r2 h
      unfold forceAddFiles at h
      cases h
      simp
  | cons n rest ih =>
      intro r res r2 h
      unfold forceAddFiles at h
      cases h1 : forceAddOne r n with
      | mk res1 r1 =>
          rw [h1] at h
          cases res1 with
          | ok u =>
              have e1 := forceAddOne_modifies_only_index r n (.ok u) r1 h1
              have e2 := ih r1 res r2 h
              exact ⟨e2.1.trans e1.1, e2.2.1.trans e1.2.1, e2.2.2.1.trans e1.2.2.1,
                e2.2.2.2.1.trans e1.2.2.2.1, e2.2.2.2.2.1.trans e1.2.2.2.2.1,
                e2.2.2.2.2.2.1.trans e1.2.2.2.2.2.1,
                e2.2.2.2.2.2.2.1.trans e1.2.2.2.2.2.2.1,
                e2.2.2.2.2.2.2.2.1.trans e1.2.2.2.2.2.2.2.1,
                e2.2.2.2.2.2.2.2.2.trans e1.2.2.2.2.2.2.2.2⟩
          | error e =>
              cases h
              simp

/-- On success, `gitCommit` prepends exactly the commit it minted; on
failure it leaves the state untouched. -/
theorem gitCommit_cases (r : Repo) (msg : String) :
    (∃ e, gitCommit r msg = (.error e, r)) ∨
    (∃ parentOpt,
      gitCommit r msg =
        (.ok (hashStr r.counter),
          { (r.setBranch r.headBranch (hashStr r.counter)) with
              commits := (hashStr r.counter,
                { parent := parentOpt, message := ensureNewline msg, tree := r.index,
                  timestamp := r.clock, gsb := true }) :: r.commits,
              clock := r.clock + 1, counter := r.counter + 1 })) := by
  unfold gitCommit
  cases hh : r.headTarget with
  | none => exact Or.inr ⟨none, rfl⟩
  | some p =>
      cases hc : r.commitAt p with
      | none => exact Or.inl ⟨.osError "corrupt repository", by simp [hc]⟩
      | some pObj =>
          by_cases he : r.index = pObj.tree
          · exact Or.inl ⟨.valueError "Nothing to commit", by simp [hc, he]⟩
          · exact Or.inr ⟨some p, by simp [hc, he]⟩

/-- `gitTag` never touches the commit store. -/
theorem gitTag_snd_commits (r : Repo) (name : String) (note target : Option String) :
    ((gitTag r name note target).2).commits = r.commits := by
  unfold gitTag
  by_cases ht : r.hasTag name = true
  · simp [ht]
  · simp only [ht, if_false, Bool.false_eq_true]
    cases htr : (match target with | some t => some t | none => r.headTarget) with
    | none => simp [htr]
    | some t =>
        cases hres : resolveRef r t with
        | none => simp [htr, hres]
        | some e => simp [htr, hres]

/-- `gitTag` never touches the commit store (equation form). -/
theorem gitTag_commits (r : Repo) (name : String) (note : Option String)
    (target : Option String) (res : Except PyErr TagObj) (r2 : Repo)
    (h : gitTag r name note target = (res, r2)) : r2.commits = r.commits := by
  have h2 : (gitTag r name note target).2 = r2 := by rw [h]
  rw [← h2]
  exact gitTag_snd_commits r name note target

/-- C10: `create_backup` ignores its `commit_message` parameter entirely —
the call's outcome is identical for any two values of that parameter, and
the commit it creates (when one is created) carries `tag_message` as its
message when one was given and the fixed string "GSB-managed commit"
otherwise. -/
theorem createBackup_ignores_commit_message (r : Repo) (tm cm cm' : Option String)
    (c : CommitObj)
    (hnew : r.commitAt (hashStr r.counter) = none)
    (hc : ((createBackup r tm cm).2).commitAt (hashStr r.counter) = some c) :
    createBackup r tm cm = createBackup r tm cm' ∧
    c.message = ensureNewline (pyOr tm "GSB-managed commit") := by
  refine ⟨rfl, ?_⟩
  cases hfa : forceAddFiles (stageAdd r r.patterns) requiredFiles with
  | mk res2 r2 =>
      have e2 := forceAddFiles_modifies_only_index requiredFiles (stageAdd r r.patterns)
        res2 r2 hfa
      have hc2 : r2.commits = r.commits := by
        rw [e2.1]; rfl
      have hn2 : r2.counter = r.counter := by
        rw [e2.2.1]; rfl
      have hnew2 : r2.commitAt (hashStr r.counter) = none := by
        unfold Repo.commitAt at hnew ⊢
        rw [hc2]
        exact hnew
      simp only [createBackup, hfa] at hc
      cases res2 with
      | error e => rw [hnew2] at hc; cases hc
      | ok u =>
          rcases gitCommit_cases r2 (pyOr tm "GSB-managed commit") with
            ⟨e, hcom⟩ | ⟨pOpt, hcom⟩
          · -- commit failed: afterwards there is still no commit at that hash
            simp only [hcom] at hc
            by_cases htm : pyTruthy tm = true <;>
              by_cases hve : e.isValueError = true <;>
                simp only [htm, hve, if_true, if_false, Bool.false_eq_true] at hc
            · cases htag : gitTag r2 (genTagName r2) tm none with
              | mk res3 r3 =>
                  have h3 : r3.commits = r2.commits :=
                    gitTag_commits r2 (genTagName r2) tm none res3 r3 htag
                  have hnew3 : r3.commitAt (hashStr r.counter) = none := by
                    unfold Repo.commitAt at hnew2 ⊢
                    rw [h3]
                    exact hnew2
                  rw [htag] at hc
                  cases res3 <;> simp only at hc <;> rw [hnew3] at hc <;> cases hc
            · rw [hnew2] at hc; cases hc
            · rw [hnew2] at hc; cases hc
            · rw [hnew2] at hc; cases hc
          · -- commit succeeded: the minted commit is found and carries the message
            have hfind :
                (Repo.commitAt
                  { (r2.setBranch r2.headBranch (hashStr r2.counter)) with
                      commits := (hashStr r2.counter,
                        { parent := pOpt, message := ensureNewline (pyOr tm "GSB-managed commit"),
                          tree := r2.index, timestamp := r2.clock, gsb := true }) :: r2.commits,
                      clock := r2.clock + 1, counter := r2.counter + 1 })
                  (hashStr r2.counter) =
                some { parent := pOpt, message := ensureNewline (pyOr tm "GSB-managed commit"),
                       tree := r2.index, timestamp := r2.clock, gsb := true } := by
              unfold Repo.commitAt
              simp [List.find?_cons]
            simp only [hcom] at hc
            rw [← hn2] at hc
            by_cases htm : pyTruthy tm = true <;>
              simp only [htm, if_true, if_false, Bool.false_eq_true] at hc
            · cases htag : gitTag
                  { (r2.setBranch r2.headBranch (hashStr r2.counter)) with
                      commits := (hashStr r2.counter,
                        { parent := pOpt, message := ensureNewline (pyOr tm "GSB-managed commit"),
                          tree := r2.index, timestamp := r2.clock, gsb := true }) :: r2.commits,
                      clock := r2.clock + 1, counter := r2.counter + 1 }
                  (genTagName
                    { (r2.setBranch r2.headBranch (hashStr r2.counter)) with
                        commits := (hashStr r2.counter,
                          { parent := pOpt, message := ensureNewline (pyOr tm "GSB-managed commit"),
                            tree := r2.index, timestamp := r2.clock, gsb := true }) :: r2.commits,
                        clock := r2.clock + 1, counter := r2.counter + 1 }) tm none with
              | mk res3 r3 =>
                  have h3 := gitTag_commits _ _ tm none res3 r3 htag
                  rw [htag] at hc
                  cases res3 <;>
                    · unfold Repo.commitAt at hc
                      rw [h3] at hc
                      have hx := hfind
                      unfold Repo.commitAt at hx
                      rw [hc] at hx
                      cases hx
                      rfl
            · rw [hfind] at hc
              cases hc
              rfl

/-- The dirtied demo repository: one tracked file edited. -/
def demoDirty : Repo := { demo with worktree := trF "5" }

/-- The commit `create_backup` mints on the dirtied demo repository. -/
def demoDirtyCommit : CommitObj :=
  { parent := some (hashStr 4), message := "hello\n", tree := Tree.make (trF "5"),
    timestamp := 5, gsb := true }

set_option maxRecDepth 1000000 in
/-- Witness for C10 at a concrete repository. -/
theorem createBackup_ignores_commit_message_witness :
    createBackup demoDirty (some "hello") (some "ignored") =
      createBackup demoDirty (some "hello") none ∧
    demoDirtyCommit.message = ensureNewline (pyOr (some "hello") "GSB-managed commit") :=
  createBackup_ignores_commit_message demoDirty (some "hello") (some "ignored") none
    demoDirtyCommit rfl rfl

/-! ### Claim C5 — empty stage: fail without a tag, reuse the head with one -/

/-- C5: when the stage is empty relative to its parent (the staged index
equals the head commit's tree), `create_backup` without a tag message fails
with the recoverable nothing-to-commit `ValueError`, while `create_backup`
with a tag message succeeds: the prior head commit is reused as the commit
to tag, so a tagged backup is never skipped. -/
theorem createBackup_empty_stage (r : Repo) (cm : Option String) (m : String)
    (rs : Repo) (hHash : String) (hObj : CommitObj)
    (hstage : forceAddFiles (stageAdd r r.patterns) requiredFiles = (.ok (), rs))
    (hhead : rs.headTarget = some hHash)
    (hobj : rs.commitAt hHash = some hObj)
    (hempty : rs.index = hObj.tree)
    (hres : resolveRef rs hHash = some (hHash, hObj))
    (hfresh : rs.hasTag (genTagName rs) = false)
    (hm : ¬ m = "") :
    createBackup r none cm = (.error (.valueError "Nothing to commit"), rs) ∧
    createBackup r (some m) cm =
      (.ok (genTagName rs),
        { rs with tags := rs.tags ++
            [{ name := genTagName rs, note := some (ensureNewline m),
               target := hHash, gsb := some true }] }) := by
  have hcommit : ∀ msg, gitCommit rs msg = (.error (.valueError "Nothing to commit"), rs) := by
    intro msg
    unfold gitCommit
    simp [hhead, hobj, hempty]
  have htag : gitTag rs (genTagName rs) (some m) none =
      (.ok { name := genTagName rs, note := some (ensureNewline m),
             target := hHash, gsb := some true },
        { rs with tags := rs.tags ++
            [{ name := genTagName rs, note := some (ensureNewline m),
               target := hHash, gsb := some true }] }) := by
    unfold gitTag
    simp [hfresh, hhead, hres]
  constructor
  · simp [createBackup, hstage, hcommit, pyTruthy, PyErr.isValueError]
  · have htm : pyTruthy (some m) = true := by simp [pyTruthy, hm]
    simp [createBackup, hstage, hcommit, htm, PyErr.isValueError, htag]

/-- The head commit of the demo repository. -/
def demoHeadCommit : CommitObj :=
  { parent := some (hashStr 3), message := "four", tree := trF "4",
    timestamp := 4, gsb := true }

set_option maxRecDepth 1000000 in
/-- Witness for C5: on the clean demo repository an untagged backup fails
with the nothing-to-commit error, while a tagged backup reuses the head. -/
theorem createBackup_empty_stage_witness :
    createBackup demo none none = (.error (.valueError "Nothing to commit"), demo) ∧
    createBackup demo (some "hello") none =
      (.ok (genTagName demo),
        { demo with tags := demo.tags ++
            [{ name := genTagName demo, note := some (ensureNewline "hello"),
               target := hashStr 4, gsb := some true }] }) :=
  createBackup_empty_stage demo none "hello" demo (hashStr 4) demoHeadCommit
    rfl rfl rfl rfl rfl rfl (by decide)

/-! ### The matching loop of `delete_backups` -/

/-- Away from the initial revision, the matching loop always completes, and
the leftover not-found set is exactly the incoming set minus the identifiers
still ahead in the walk. -/
theorem delLoop_ok_of_pos (allRevs : List Revision) :
    ∀ (l : List Revision) (i : Nat) (nf keep : List String), 1 ≤ i → nf.Nodup →
      ∃ nf' keep', delLoop allRevs l i nf keep = .ok (nf', keep') ∧ nf'.Nodup ∧
        (∀ t, t ∈ nf' ↔ (t ∈ nf ∧ t ∉ l.map (fun v => v.identifier))) := by
  intro l
  induction l with
  | nil =>
      intro i nf keep _ hnf
      exact ⟨nf, keep, rfl, hnf, by simp⟩
  | cons rev rest ih =>
      intro i nf keep hi hnf
      cases hc : nf.contains rev.identifier with
      | true =>
          have hi0 : ¬ i = 0 := by omega
          have herase : ∀ t, t ∈ nf.erase rev.identifier ↔
              (t ∈ nf ∧ ¬ t = rev.identifier) := by
            intro t
            constructor
            · intro ht
              exact ⟨List.mem_of_mem_erase ht, (hnf.mem_erase_iff.mp ht).1⟩
            · intro ⟨h1, h2⟩
              exact hnf.mem_erase_iff.mpr ⟨h2, h1⟩
          cases hk : keep.isEmpty with
          | true =>
              obtain ⟨nf', keep', hrun, hnd, hmem⟩ :=
                ih (i + 1) (nf.erase rev.identifier)
                  (keep ++ [(allRevs.getD (allRevs.length - i) default).identifier])
                  (by omega) (hnf.erase rev.identifier)
              refine ⟨nf', keep', ?_, hnd, ?_⟩
              · simp only [delLoop, hc, hk, hi0, if_true, if_false]
                exact hrun
              · intro t
                rw [hmem t, herase t]
                simp [and_assoc]
          | false =>
              obtain ⟨nf', keep', hrun, hnd, hmem⟩ :=
                ih (i + 1) (nf.erase rev.identifier) keep (by omega)
                  (hnf.erase rev.identifier)
              refine ⟨nf', keep', ?_, hnd, ?_⟩
              · simp only [delLoop, hc, hk, if_true, if_false, Bool.false_eq_true]
                exact hrun
              · intro t
                rw [hmem t, herase t]
                simp [and_assoc]
      | false =>
          have hid : rev.identifier ∉ nf := by
            intro hmem
            have hco : nf.contains rev.identifier = true := List.elem_eq_true_of_mem hmem
            rw [hco] at hc
            cases hc
          have hstep : ∀ keep2, delLoop allRevs (rev :: rest) i nf keep2 =
              delLoop allRevs rest (i + 1) nf
                (if keep2.isEmpty then keep2 else keep2 ++ [rev.identifier]) := by
            intro keep2
            cases hk : keep2.isEmpty <;>
              simp only [delLoop, hc, hk, if_true, if_false, Bool.false_eq_true]
          obtain ⟨nf', keep', hrun, hnd, hmem⟩ :=
            ih (i + 1) nf (if keep.isEmpty then keep else keep ++ [rev.identifier])
              (by omega) hnf
          refine ⟨nf', keep', ?_, hnd, ?_⟩
          · rw [hstep keep]
            exact hrun
          · intro t
            rw [hmem t]
            constructor
            · intro ⟨h1, h2⟩
              refine ⟨h1, ?_⟩
              simp only [List.map_cons, List.mem_cons]
              rintro (h3 | h3)
              · rw [h3] at h1
                exact hid h1
              · exact h2 h3
            · intro ⟨h1, h2⟩
              refine ⟨h1, fun h3 => h2 ?_⟩
              simp only [List.map_cons, List.mem_cons]
              exact Or.inr h3

/-! ### Claim C2 — targeting the root revision fails fast, without mutation -/

/-- C2: whenever one of the targets is the identifier of the very first
(root) revision of the timeline, `delete_backups` raises the
`NotImplementedError` immediately and returns the repository completely
unchanged — no commit, tag, branch, or working-tree mutation happens. -/
theorem deleteBackups_root_target_fails_fast (fault : Option Nat) (r : Repo)
    (targets : List String) (rootRev : Revision)
    (hroot : (getHistory r false true (-1) 0 false).getLast? = some rootRev)
    (hmem : rootRev.identifier ∈ targets) :
    deleteBackups fault r targets =
      (.error (.notImplError "Deleting the initial backup is not currently supported."), r) := by
  unfold deleteBackups
  cases hl : (getHistory r false true (-1) 0 false).reverse with
  | nil =>
      rw [← List.head?_reverse, hl] at hroot
      cases hroot
  | cons a t =>
      have ha : a = rootRev := by
        rw [← List.head?_reverse, hl] at hroot
        cases hroot
        rfl
      have hc : (targets.dedup).contains a.identifier = true := by
        rw [ha]
        exact List.elem_eq_true_of_mem (List.mem_dedup.mpr hmem)
      simp [delLoop, hc, ha, hmem]

set_option maxRecDepth 1000000 in
/-- Witness for C2: targeting `v1` (the root) on the demo repository. -/
theorem deleteBackups_root_target_fails_fast_witness :
    deleteBackups none demo ["v3", "v1"] =
      (.error (.notImplError "Deleting the initial backup is not currently supported."), demo) :=
  deleteBackups_root_target_fails_fast none demo ["v3", "v1"]
    { identifier := "v1", commitHash := hashStr 0, description := "start",
      timestamp := 0, tagged := true, gsb := true }
    (by decide) (by decide)

/-! ### Claim C3 — unmatched targets abort with one aggregate error

As stated the claim fails: when an unmatched target is combined with a
target that resolves to the root revision, the operation aborts with the
root-deletion `NotImplementedError` instead of the aggregate not-found
error, so the unmatched target is not reported.  Away from that corner the
aggregate behaviour holds. -/

set_option maxRecDepth 1000000 in
/-- Counterexample to C3 as stated: `zzzz` matches no revision of the demo
repository, yet `delete_backups(demo, "v1", "zzzz")` does not abort with
the aggregate not-found error listing it — the root-target check fires
first. -/
theorem deleteBackups_unmatched_counterexample :
    ("zzzz" ∉ (getHistory demo false true (-1) 0 false).map (fun v => v.identifier)) ∧
    deleteBackups none demo ["v1", "zzzz"] =
      (.error (.notImplError "Deleting the initial backup is not currently supported."), demo) :=
  ⟨by decide, rfl⟩

/-- C3 (amended): provided no target resolves to the very first (root)
revision, if any target fails to match a revision then the whole operation
aborts, unmutated, with a single aggregate not-found `ValueError` whose
list contains exactly the unmatched targets — it never fails on only the
first miss, and no partial deletion is performed. -/
theorem deleteBackups_unmatched_aborts_aggregate (fault : Option Nat) (r : Repo)
    (targets : List String)
    (hroot : ∀ rootRev, (getHistory r false true (-1) 0 false).getLast? = some rootRev →
      rootRev.identifier ∉ targets)
    (hmiss : ∃ t, t ∈ targets ∧
      t ∉ (getHistory r false true (-1) 0 false).map (fun v => v.identifier)) :
    ∃ nf, nf ≠ [] ∧
      deleteBackups fault r targets = (.error (.valueError (notFoundMsg nf)), r) ∧
      (∀ t, t ∈ nf ↔ (t ∈ targets ∧
        t ∉ (getHistory r false true (-1) 0 false).map (fun v => v.identifier))) := by
  have hrevmem : ∀ v : Revision,
      v ∈ (getHistory r false true (-1) 0 false).reverse ↔
        v ∈ getHistory r false true (-1) 0 false := fun v => List.mem_reverse
  cases hl : (getHistory r false true (-1) 0 false).reverse with
  | nil =>
      have hempty : getHistory r false true (-1) 0 false = [] := by
        have := congrArg List.reverse hl
        simpa using this
      obtain ⟨t0, ht0, _⟩ := hmiss
      refine ⟨targets.dedup, ?_, ?_, ?_⟩
      · intro hnil
        have : t0 ∈ targets.dedup := List.mem_dedup.mpr ht0
        rw [hnil] at this
        cases this
      · unfold deleteBackups
        rw [hl]
        have hne : targets.dedup.isEmpty = false := by
          cases hd : targets.dedup with
          | nil =>
              have : t0 ∈ targets.dedup := List.mem_dedup.mpr ht0
              rw [hd] at this
              cases this
          | cons x xs => rfl
        simp only [delLoop]
        simp [hne, List.isEmpty_iff]
      · intro t
        rw [hempty]
        simp [List.mem_dedup]
  | cons a t =>
      have ha : (getHistory r false true (-1) 0 false).getLast? = some a := by
        rw [← List.head?_reverse, hl]
        rfl
      have hanot : a.identifier ∉ targets := hroot a ha
      have hc : targets.dedup.contains a.identifier = false := by
        cases hcc : targets.dedup.contains a.identifier with
        | false => rfl
        | true =>
            have : a.identifier ∈ targets.dedup := by
              have := List.mem_of_elem_eq_true hcc
              exact this
            exact absurd (List.mem_dedup.mp this) hanot
      obtain ⟨nf', keep', hrun, hnd, hmem⟩ :=
        delLoop_ok_of_pos (getHistory r false true (-1) 0 false) t 1 targets.dedup []
          (by omega) targets.nodup_dedup
      have hGH : getHistory r false true (-1) 0 false = (a :: t).reverse := by
        have h2 := congrArg List.reverse hl
        simpa using h2
      have hids : ∀ s, (s ∈ (getHistory r false true (-1) 0 false).map (fun v => v.identifier) ↔
          (s = a.identifier ∨ s ∈ t.map (fun v => v.identifier))) := by
        intro s
        rw [hGH]
        simp only [List.map_reverse, List.mem_reverse, List.map_cons, List.mem_cons]
      have hmem2 : ∀ s, s ∈ nf' ↔ (s ∈ targets ∧
          s ∉ (getHistory r false true (-1) 0 false).map (fun v => v.identifier)) := by
        intro s
        rw [hmem s, List.mem_dedup, hids s]
        constructor
        · intro ⟨h1, h2⟩
          refine ⟨h1, ?_⟩
          rintro (h3 | h3)
          · rw [h3] at h1
            exact hanot h1
          · exact h2 h3
        · intro ⟨h1, h2⟩
          exact ⟨h1, fun h3 => h2 (Or.inr h3)⟩
      obtain ⟨t0, ht0, ht0n⟩ := hmiss
      have ht0nf : t0 ∈ nf' := (hmem2 t0).mpr ⟨ht0, ht0n⟩
      have hne : ¬ nf' = [] := by
        intro habs
        rw [habs] at ht0nf
        cases ht0nf
      refine ⟨nf', hne, ?_, hmem2⟩
      unfold deleteBackups
      rw [hl]
      simp only [delLoop, hc, Bool.false_eq_true, if_false, List.isEmpty_nil, if_true]
      rw [hrun]
      simp [List.isEmpty_iff, hne]

set_option maxRecDepth 1000000 in
/-- Witness for the amended C3: one matched and one unmatched target; the
aggregate error lists exactly the unmatched one and the repository is
untouched. -/
theorem deleteBackups_unmatched_aborts_aggregate_witness :
    ∃ nf, nf ≠ [] ∧
      deleteBackups none demo ["v2", "zzzz"] = (.error (.valueError (notFoundMsg nf)), demo) ∧
      (∀ t, t ∈ nf ↔ (t ∈ ["v2", "zzzz"] ∧
        t ∉ (getHistory demo false true (-1) 0 false).map (fun v => v.identifier))) :=
  deleteBackups_unmatched_aborts_aggregate none demo ["v2", "zzzz"]
    (by decide) (by decide)

/-! ### Claim C4 — matching is identifier-only, not by full hash

The claim (and the repository's own `test_deleting_by_commit[full]` test)
says a revision can be selected for deletion by its full commit hash, and a
tagged revision by hash or 8-character prefix.  The code matches targets
against `rev["identifier"]` only (fastforward.py line 152, with the line-151
TODO admitting as much), so full hashes never match: the claim is right and
the checked-in code is wrong. -/

set_option maxRecDepth 1000000 in
/-- C4: on the demo repository, an untagged revision's full commit hash is
in the history, yet `delete_backups` by that full hash aborts with the
not-found error (the repository's own test expects it to delete), while the
8-character short form is accepted; a tagged revision cannot be selected by
its hash either, only by tag name. -/
theorem deleteBackups_full_hash_is_not_matched :
    (∃ v ∈ getHistory demo false true (-1) 0 false,
        v.commitHash = hashStr 1 ∧ v.identifier = shortHash (hashStr 1)) ∧
    deleteBackups none demo [hashStr 1] =
      (.error (.valueError (notFoundMsg [hashStr 1])), demo) ∧
    (deleteBackups none demo [shortHash (hashStr 1)]).1 = .ok (hashStr 7) ∧
    (∃ v ∈ getHistory demo false true (-1) 0 false,
        v.commitHash = hashStr 2 ∧ v.identifier = "v2") ∧
    deleteBackups none demo [hashStr 2] =
      (.error (.valueError (notFoundMsg [hashStr 2])), demo) ∧
    deleteBackups none demo [shortHash (hashStr 2)] =
      (.error (.valueError (notFoundMsg [shortHash (hashStr 2)])), demo) :=
  ⟨by decide, rfl, rfl, by decide, rfl, rfl⟩

/-! ### Claim C9 — the result depends only on the set of targets -/

/-- Two runs of the matching loop whose not-found sets have the same
members behave identically: same raise decision, same keep list, and
leftover sets that are empty together. -/
theorem delLoop_congr (allRevs : List Revision) :
    ∀ (l : List Revision) (i : Nat) (nf₁ nf₂ keep : List String),
      nf₁.Nodup → nf₂.Nodup → (∀ t, t ∈ nf₁ ↔ t ∈ nf₂) →
      (∃ err, delLoop allRevs l i nf₁ keep = .error err ∧
          delLoop allRevs l i nf₂ keep = .error err) ∨
      (∃ nf₁' nf₂' keep', delLoop allRevs l i nf₁ keep = .ok (nf₁', keep') ∧
          delLoop allRevs l i nf₂ keep = .ok (nf₂', keep') ∧
          (nf₁' = [] ↔ nf₂' = [])) := by
  intro l
  induction l with
  | nil =>
      intro i nf₁ nf₂ keep hn1 hn2 hm
      refine Or.inr ⟨nf₁, nf₂, keep, rfl, rfl, ?_⟩
      constructor
      · intro h1
        rw [List.eq_nil_iff_forall_not_mem]
        intro x hx
        have : x ∈ nf₁ := (hm x).mpr hx
        rw [h1] at this
        cases this
      · intro h2
        rw [List.eq_nil_iff_forall_not_mem]
        intro x hx
        have : x ∈ nf₂ := (hm x).mp hx
        rw [h2] at this
        cases this
  | cons rev rest ih =>
      intro i nf₁ nf₂ keep hn1 hn2 hm
      have hmerase : ∀ t, t ∈ nf₁.erase rev.identifier ↔ t ∈ nf₂.erase rev.identifier := by
        intro t
        rw [hn1.mem_erase_iff, hn2.mem_erase_iff, hm t]
      by_cases hin : rev.identifier ∈ nf₁
      · have hin2 : rev.identifier ∈ nf₂ := (hm _).mp hin
        have hc : nf₁.contains rev.identifier = true := List.elem_eq_true_of_mem hin
        have hc2 : nf₂.contains rev.identifier = true := List.elem_eq_true_of_mem hin2
        cases hk : keep.isEmpty with
        | true =>
            by_cases hi0 : i = 0
            · refine Or.inl ⟨.notImplError "Deleting the initial backup is not currently supported.",
                ?_, ?_⟩ <;> simp [delLoop, hc, hc2, hin, hin2, hk, hi0]
            · have hrec := ih (i + 1) (nf₁.erase rev.identifier) (nf₂.erase rev.identifier)
                (keep ++ [(allRevs.getD (allRevs.length - i) default).identifier])
                (hn1.erase _) (hn2.erase _) hmerase
              rcases hrec with ⟨err, h1, h2⟩ | ⟨a, b, k, h1, h2, h3⟩
              · refine Or.inl ⟨err, ?_, ?_⟩
                · simp only [List.getD, List.get?_eq_getElem?] at h1
                  simp [delLoop, hc, hc2, hin, hin2, hk, hi0, h1]
                · simp only [List.getD, List.get?_eq_getElem?] at h2
                  simp [delLoop, hc, hc2, hin, hin2, hk, hi0, h2]
              · refine Or.inr ⟨a, b, k, ?_, ?_, h3⟩
                · simp only [List.getD, List.get?_eq_getElem?] at h1
                  simp [delLoop, hc, hc2, hin, hin2, hk, hi0, h1]
                · simp only [List.getD, List.get?_eq_getElem?] at h2
                  simp [delLoop, hc, hc2, hin, hin2, hk, hi0, h2]
        | false =>
            have hrec := ih (i + 1) (nf₁.erase rev.identifier) (nf₂.erase rev.identifier)
              keep (hn1.erase _) (hn2.erase _) hmerase
            rcases hrec with ⟨err, h1, h2⟩ | ⟨a, b, k, h1, h2, h3⟩
            · exact Or.inl ⟨err, by simp [delLoop, hc, hc2, hin, hin2, hk, h1],
                by simp [delLoop, hc, hc2, hin, hin2, hk, h2]⟩
            · exact Or.inr ⟨a, b, k, by simp [delLoop, hc, hc2, hin, hin2, hk, h1],
                by simp [delLoop, hc, hc2, hin, hin2, hk, h2], h3⟩
      · have hin2 : rev.identifier ∉ nf₂ := fun hx => hin ((hm _).mpr hx)
        have hc : nf₁.contains rev.identifier = false := by
          cases hcc : nf₁.contains rev.identifier with
          | false => rfl
          | true => exact absurd (List.mem_of_elem_eq_true hcc) hin
        have hc2 : nf₂.contains rev.identifier = false := by
          cases hcc : nf₂.contains rev.identifier with
          | false => rfl
          | true => exact absurd (List.mem_of_elem_eq_true hcc) hin2
        have hrec := ih (i + 1) nf₁ nf₂
          (if keep.isEmpty then keep else keep ++ [rev.identifier]) hn1 hn2 hm
        rcases hrec with ⟨err, h1, h2⟩ | ⟨a, b, k, h1, h2, h3⟩
        · refine Or.inl ⟨err, ?_, ?_⟩ <;>
            cases hk : keep.isEmpty <;>
              simp only [hk, if_true, if_false, Bool.false_eq_true] at h1 h2 <;>
                simp [delLoop, hc, hc2, hin, hin2, hk, h1, h2]
        · refine Or.inr ⟨a, b, k, ?_, ?_, h3⟩ <;>
            cases hk : keep.isEmpty <;>
              simp only [hk, if_true, if_false, Bool.false_eq_true] at h1 h2 <;>
                simp [delLoop, hc, hc2, hin, hin2, hk, h1, h2]

/-- C9: the outcome of a successful `delete_backups` depends only on the
set of target identifiers — any permutation or duplication of the targets
produces the identical survivor set, branch point, resulting history and
return value. -/
theorem deleteBackups_depends_only_on_target_set (fault : Option Nat) (r : Repo)
    (t1 t2 : List String)
    (hset : t1.toFinset = t2.toFinset)
    (hok : ∃ h r', deleteBackups fault r t1 = (.ok h, r')) :
    deleteBackups fault r t2 = deleteBackups fault r t1 := by
  obtain ⟨hret, r', hrun⟩ := hok
  have hm : ∀ s, s ∈ t1.dedup ↔ s ∈ t2.dedup := by
    intro s
    rw [List.mem_dedup, List.mem_dedup, ← List.mem_toFinset, hset, List.mem_toFinset]
  have hcongr := delLoop_congr (getHistory r false true (-1) 0 false)
    (getHistory r false true (-1) 0 false).reverse 0 t1.dedup t2.dedup []
    t1.nodup_dedup t2.nodup_dedup hm
  rcases hcongr with ⟨err, h1, h2⟩ | ⟨a, b, k, h1, h2, h3⟩
  · simp only [deleteBackups, h1] at hrun
    simp at hrun
  · by_cases hae : a = []
    · have hbe : b = [] := h3.mp hae
      unfold deleteBackups
      rw [h1, h2, hae, hbe]
    · have hbe : ¬ b = [] := fun hb => hae (h3.mpr hb)
      simp only [deleteBackups, h1] at hrun
      simp [List.isEmpty_iff, hae] at hrun

set_option maxRecDepth 1000000 in
/-- Witness for C9: permuting and duplicating the targets of a successful
deletion gives the identical result. -/
theorem deleteBackups_depends_only_on_target_set_witness :
    deleteBackups none demo [shortHash (hashStr 3), "v3", "v3"] =
      deleteBackups none demo ["v3", shortHash (hashStr 3)] :=
  deleteBackups_depends_only_on_target_set none demo
    ["v3", shortHash (hashStr 3)] [shortHash (hashStr 3), "v3", "v3"]
    (by decide)
    ⟨"v2", (deleteBackups none demo ["v3", shortHash (hashStr 3)]).2, rfl⟩

/-! ### Claim C1 — rollback on failure after branching

As stated the claim fails: the rollback handler (fastforward.py lines
109-114) hard-resets and re-checks-out the managed branch but never
restores tags, so a failure between `delete_tag` and `tag` in the
retagging stage permanently loses an original tag — the pre-operation
timeline is left modified.  For failures during the replaying stage
(after the temporary branch is created and before retagging begins) the
rollback is complete, which is proved below. -/

/-- Resolution only reads the tag table and the commit store. -/
theorem resolveRef_congr (r r' : Repo) (ref : String)
    (ht : r'.tags = r.tags) (hc : r'.commits = r.commits) :
    resolveRef r' ref = resolveRef r ref := by
  unfold resolveRef
  rw [ht, hc]

/-- A filter that removes a name nothing in the list carries is a no-op. -/
theorem filter_fresh (l : List (String × String)) (n : String)
    (h : ∀ e ∈ l, ¬ e.1 = n) : l.filter (fun e => ¬ e.1 = n) = l := by
  rw [List.filter_eq_self]
  intro a ha
  simpa using h a ha

/-- The state relation maintained while the rewrite engine works on the
temporary branch: the head is the temporary branch, the tag table is
untouched, the branch table is the original one with just the temporary
branch pushed on top, no original commit has been dropped, the original
head commit is still found unchanged, and the object counter has not gone
backwards. -/
structure MidInv (rb : Repo) (H : String) (r : Repo) : Prop where
  hb : r.headBranch = tempBranchName rb
  tags : r.tags = rb.tags
  branches : ∃ x, r.branches = (tempBranchName rb, x) :: rb.branches
  commitsSup : ∀ c, c ∈ rb.commits → c ∈ r.commits
  atH : r.commitAt H = rb.commitAt H
  cLB : rb.counter ≤ r.counter

/-- Moving the temporary branch (and optionally the working tree) keeps
the mid-rewrite invariant and all repository observables other than the
branch pointer. -/
theorem gitReset_cases (r : Repo) (tgt : String) (hard : Bool) :
    gitReset r tgt hard = (.error (.valueError ("could not resolve " ++ tgt)), r) ∨
    (∃ ch, resolveRef r tgt = some ch ∧
      gitReset r tgt hard =
        (.ok (), if hard then
            { (r.setBranch r.headBranch ch.1) with worktree := ch.2.tree, index := ch.2.tree }
          else r.setBranch r.headBranch ch.1)) := by
  unfold gitReset
  cases hres : resolveRef r tgt with
  | none => exact Or.inl rfl
  | some ch =>
      refine Or.inr ⟨ch, rfl, ?_⟩
      cases hard <;> simp

/-- `setBranch` on the checked-out temporary branch keeps the invariant
shape of the branch table. -/
theorem setBranch_temp_branches (rb : Repo) (r : Repo) (x tNew : String)
    (htfresh : ∀ e ∈ rb.branches, ¬ e.1 = tempBranchName rb)
    (hbr : r.branches = (tempBranchName rb, x) :: rb.branches) :
    (r.setBranch (tempBranchName rb) tNew).branches =
      (tempBranchName rb, tNew) :: rb.branches := by
  unfold Repo.setBranch
  rw [hbr]
  have hstep : List.filter (fun e => ¬ e.1 = tempBranchName rb)
      ((tempBranchName rb, x) :: rb.branches) =
      List.filter (fun e => ¬ e.1 = tempBranchName rb) rb.branches := by
    rw [List.filter_cons]
    simp
  rw [hstep, filter_fresh rb.branches (tempBranchName rb) htfresh]

/-- Failed resets do not modify the repository. -/
theorem gitReset_error_state (r : Repo) (tgt : String) (hard : Bool) (e : PyErr)
    (r2 : Repo) (hrun : gitReset r tgt hard = (.error e, r2)) : r2 = r := by
  rcases gitReset_cases r tgt hard with herr | ⟨ch, _, hok⟩
  · rw [herr] at hrun
    exact (congrArg Prod.snd hrun).symm
  · rw [hok] at hrun
    exact absurd (congrArg Prod.fst hrun) (by simp)

/-- Failed commits do not modify the repository. -/
theorem gitCommit_error_state (r : Repo) (msg : String) (e : PyErr)
    (r2 : Repo) (hrun : gitCommit r msg = (.error e, r2)) : r2 = r := by
  rcases gitCommit_cases r msg with ⟨e2, hcom⟩ | ⟨pOpt, hcom⟩
  · rw [hcom] at hrun
    exact (congrArg Prod.snd hrun).symm
  · rw [hcom] at hrun
    exact absurd (congrArg Prod.fst hrun) (by simp)

/-- Prepending a commit of a different hash does not change a lookup. -/
theorem commitAt_cons_ne (r2 : Repo) (h : String) (obj : CommitObj)
    (tl : List (String × CommitObj)) (H : String)
    (hcs : r2.commits = (h, obj) :: tl) (hne : ¬ h = H) :
    r2.commitAt H = (List.find? (fun e => e.1 = H) tl).map (fun e => e.2) := by
  unfold Repo.commitAt
  rw [hcs, List.find?_cons]
  simp [hne]

/-- A freshly minted hash resolves to its commit as long as no tag shares
its name. -/
theorem resolveRef_fresh (r2 : Repo) (h : String) (obj : CommitObj)
    (tl : List (String × CommitObj)) (hcs : r2.commits = (h, obj) :: tl)
    (hnt : r2.tags.find? (fun t => t.name = h) = none) :
    resolveRef r2 h = some (h, obj) := by
  unfold resolveRef
  rw [hnt, hcs]
  simp [List.find?_cons]

/-- The mid-rewrite invariant survives a successful reset step, which only
moves the temporary branch pointer (and possibly the working tree). -/
theorem midInv_reset (rb : Repo) (H : String) (r : Repo) (inv : MidInv rb H r)
    (htfresh : ∀ e ∈ rb.branches, ¬ e.1 = tempBranchName rb)
    (tgt : String) (hard : Bool) (r2 : Repo)
    (hrun : gitReset r tgt hard = (.ok (), r2)) :
    MidInv rb H r2 ∧ r2.tags = r.tags ∧ r2.commits = r.commits ∧
      r2.counter = r.counter := by
  rcases gitReset_cases r tgt hard with herr | ⟨ch, _, hok⟩
  · rw [herr] at hrun
    exact absurd (congrArg Prod.fst hrun) (by simp)
  · rw [hok] at hrun
    obtain ⟨x, hbr⟩ := inv.branches
    have hsb : (r.setBranch r.headBranch ch.1).branches =
        (tempBranchName rb, ch.1) :: rb.branches := by
      rw [inv.hb]
      exact setBranch_temp_branches rb r x ch.1 htfresh hbr
    cases hard
    · have h2 : r.setBranch r.headBranch ch.1 = r2 := congrArg Prod.snd hrun
      subst h2
      exact ⟨⟨inv.hb, inv.tags, ⟨ch.1, hsb⟩, inv.commitsSup, inv.atH, inv.cLB⟩,
             rfl, rfl, rfl⟩
    · have h2 : ({ (r.setBranch r.headBranch ch.1) with
          worktree := ch.2.tree, index := ch.2.tree } : Repo) = r2 :=
        congrArg Prod.snd hrun
      subst h2
      exact ⟨⟨inv.hb, inv.tags, ⟨ch.1, hsb⟩, inv.commitsSup, inv.atH, inv.cLB⟩,
             rfl, rfl, rfl⟩

/-- The mid-rewrite invariant survives a successful replay commit, which
prepends one freshly-hashed commit and advances the counter. -/
theorem midInv_commit (rb : Repo) (H : String) (r : Repo) (inv : MidInv rb H r)
    (htfresh : ∀ e ∈ rb.branches, ¬ e.1 = tempBranchName rb)
    (hne : ¬ hashStr r.counter = H)
    (msg : String) (h2 : String) (r2 : Repo)
    (hrun : gitCommit r msg = (.ok h2, r2)) :
    MidInv rb H r2 ∧ r2.tags = r.tags ∧ h2 = hashStr r.counter ∧
      r2.counter = r.counter + 1 ∧
      ∃ obj, r2.commits = (hashStr r.counter, obj) :: r.commits := by
  rcases gitCommit_cases r msg with ⟨e, hcom⟩ | ⟨pOpt, hcom⟩
  · rw [hcom] at hrun
    exact absurd (congrArg Prod.fst hrun) (by simp)
  · rw [hcom] at hrun
    have hh2 : hashStr r.counter = h2 := by
      have hfst := congrArg Prod.fst hrun
      simpa using hfst
    subst hh2
    have hr2 : ({ (r.setBranch r.headBranch (hashStr r.counter)) with
        commits := (hashStr r.counter,
          { parent := pOpt, message := ensureNewline msg, tree := r.index,
            timestamp := r.clock, gsb := true }) :: r.commits,
        clock := r.clock + 1, counter := r.counter + 1 } : Repo) = r2 :=
      congrArg Prod.snd hrun
    subst hr2
    obtain ⟨x, hbr⟩ := inv.branches
    have hsb : (r.setBranch r.headBranch (hashStr r.counter)).branches =
        (tempBranchName rb, hashStr r.counter) :: rb.branches := by
      rw [inv.hb]
      exact setBranch_temp_branches rb r x (hashStr r.counter) htfresh hbr
    refine ⟨⟨inv.hb, inv.tags, ⟨hashStr r.counter, hsb⟩,
            fun c hc => List.mem_cons_of_mem _ (inv.commitsSup c hc),
            ?_, Nat.le_succ_of_le inv.cLB⟩,
           rfl, rfl, rfl, ⟨_, rfl⟩⟩
    rw [commitAt_cons_ne _ (hashStr r.counter) _ r.commits H rfl hne, ← inv.atH]
    rfl

/-- A fault injected anywhere in the replaying stage surfaces as an error
that carries a resolvable head binding, leaving the repository in a
mid-rewrite state (temporary branch checked out, tags and original
branches and commits untouched) from which the handler can roll back. -/
theorem replayLoop_fault (rb : Repo) (H : String) (N kf : Nat)
    (hnotag : ∀ i, i < N →
      rb.tags.find? (fun t => t.name = hashStr (rb.counter + i)) = none)
    (hnotH : ∀ i, i < N → ¬ hashStr (rb.counter + i) = H)
    (htfresh : ∀ e ∈ rb.branches, ¬ e.1 = tempBranchName rb) :
    ∀ (hist : List ShowResult) (head : String) (acc : List (TagObj × String))
      (t : Nat) (r : Repo),
      MidInv rb H r →
      (∃ c, resolveRef r head = some c) →
      r.counter + hist.length ≤ rb.counter + N →
      t ≤ kf → kf < t + 3 * hist.length →
      ∃ e hd r2 t2,
        replayLoop (some kf) hist head acc t r = (.error (e, hd), r2, t2) ∧
        MidInv rb H r2 ∧ (∃ c2, resolveRef r2 hd = some c2) := by
  intro hist
  induction hist with
  | nil =>
      intro head acc t r _ _ _ hk1 hk2
      simp only [List.length_nil, Nat.mul_zero, Nat.add_zero] at hk2
      exact absurd hk2 (by omega)
  | cons sr rest ih =>
      intro head acc t r inv hres hcnt hk1 hk2
      by_cases hA : kf = t
      · subst hA
        exact ⟨.injected kf, head, r, kf + 1, by simp [replayLoop, fstep], inv, hres⟩
      · cases hgA : gitReset r (replayTarget sr) true with
        | mk resA rA =>
          cases resA with
          | error eA =>
              have hrA : rA = r := gitReset_error_state r _ true eA rA hgA
              subst hrA
              exact ⟨eA, head, rA, t + 1,
                by simp [replayLoop, fstep, hA, hgA], inv, hres⟩
          | ok uA =>
              cases uA
              obtain ⟨invA, htagsA, hcommitsA, hcntA⟩ :=
                midInv_reset rb H r inv htfresh (replayTarget sr) true rA hgA
              have hresA : ∃ c, resolveRef rA head = some c := by
                obtain ⟨c, hc⟩ := hres
                exact ⟨c, (resolveRef_congr r rA head htagsA hcommitsA).trans hc⟩
              by_cases hB : kf = t + 1
              · subst hB
                exact ⟨.injected (t + 1), head, rA, t + 2,
                  by simp [replayLoop, fstep, hA, hgA], invA, hresA⟩
              · cases hgB : gitReset rA head false with
                | mk resB rB =>
                  cases resB with
                  | error eB =>
                      have hrB : rB = rA := gitReset_error_state rA head false eB rB hgB
                      subst hrB
                      exact ⟨eB, head, rB, t + 2,
                        by simp [replayLoop, fstep, hA, hB, hgA, hgB], invA, hresA⟩
                  | ok uB =>
                      cases uB
                      obtain ⟨invB, htagsB, hcommitsB, hcntB⟩ :=
                        midInv_reset rb H rA invA htfresh head false rB hgB
                      have hresB : ∃ c, resolveRef rB head = some c := by
                        obtain ⟨c, hc⟩ := hresA
                        exact ⟨c, (resolveRef_congr rA rB head htagsB hcommitsB).trans hc⟩
                      by_cases hC : kf = t + 2
                      · subst hC
                        exact ⟨.injected (t + 2), head, rB, t + 3,
                          by simp [replayLoop, fstep, hA, hB, hgA, hgB], invB, hresB⟩
                      · have hcntEq : rB.counter = r.counter := by rw [hcntB, hcntA]
                        have hlen : r.counter + (rest.length + 1) ≤ rb.counter + N := by
                          simpa using hcnt
                        have hiLt : rB.counter - rb.counter < N := by
                          have h1 : rb.counter ≤ rB.counter := invB.cLB
                          omega
                        have hiEq : rb.counter + (rB.counter - rb.counter) = rB.counter :=
                          Nat.add_sub_cancel' invB.cLB
                        have hneH : ¬ hashStr rB.counter = H := by
                          have hx := hnotH (rB.counter - rb.counter) hiLt
                          rwa [hiEq] at hx
                        have hnt : rB.tags.find?
                            (fun tg => tg.name = hashStr rB.counter) = none := by
                          have hx := hnotag (rB.counter - rb.counter) hiLt
                          rw [hiEq] at hx
                          rw [invB.tags]
                          exact hx
                        cases hgC : gitCommit rB (replayMessage sr) with
                        | mk resC rC =>
                          cases resC with
                          | error eC =>
                              have hrC : rC = rB :=
                                gitCommit_error_state rB _ eC rC hgC
                              subst hrC
                              exact ⟨eC, head, rC, t + 3,
                                by simp [replayLoop, fstep, hA, hB, hC, hgA, hgB, hgC],
                                invB, hresB⟩
                          | ok newHash =>
                              obtain ⟨invC, htagsC, hHash, hcntC, obj, hcommitsC⟩ :=
                                midInv_commit rb H rB invB htfresh hneH
                                  (replayMessage sr) newHash rC hgC
                              have hresC : ∃ c, resolveRef rC newHash = some c := by
                                refine ⟨(hashStr rB.counter, obj), ?_⟩
                                rw [hHash]
                                exact resolveRef_fresh rC (hashStr rB.counter) obj
                                  rB.commits hcommitsC (by rw [htagsC]; exact hnt)
                              have hcnt' : rC.counter + rest.length ≤ rb.counter + N := by
                                omega
                              have hk1' : t + 3 ≤ kf := by omega
                              have hk2' : kf < t + 3 + 3 * rest.length := by
                                have hx : kf < t + 3 * (rest.length + 1) := by
                                  simpa using hk2
                                omega
                              cases sr with
                              | commit ch cm ct =>
                                  obtain ⟨e, hd, r2, t2, hrec, hinv2, hres2⟩ :=
                                    ih newHash acc (t + 3) rC invC hresC hcnt' hk1' hk2'
                                  exact ⟨e, hd, r2, t2,
                                    by simp [replayLoop, fstep, hA, hB, hC,
                                             hgA, hgB, hgC, hrec],
                                    hinv2, hres2⟩
                              | tagRef tg th tm =>
                                  obtain ⟨e, hd, r2, t2, hrec, hinv2, hres2⟩ :=
                                    ih newHash (acc ++ [(tg, newHash)]) (t + 3) rC
                                      invC hresC hcnt' hk1' hk2'
                                  exact ⟨e, hd, r2, t2,
                                    by simp [replayLoop, fstep, hA, hB, hC,
                                             hgA, hgB, hgC, hrec],
                                    hinv2, hres2⟩

/-- Branch lookup skips a head entry of a different name. -/
theorem branchTarget_cons_ne (r : Repo) (n x name : String)
    (tl : List (String × String)) (hbr : r.branches = (n, x) :: tl)
    (hne : ¬ n = name) :
    r.branchTarget name =
      (List.find? (fun e => e.1 = name) tl).map (fun e => e.2) := by
  unfold Repo.branchTarget
  rw [hbr, List.find?_cons]
  simp [hne]

/-- Branch lookup finds a matching head entry. -/
theorem branchTarget_cons_self (r : Repo) (n x : String)
    (tl : List (String × String)) (hbr : r.branches = (n, x) :: tl) :
    r.branchTarget n = some x := by
  unfold Repo.branchTarget
  rw [hbr, List.find?_cons]
  simp

/-- Filtering a name out of a list drops exactly a head entry carrying it. -/
theorem filter_drop_cons (n x : String) (tl : List (String × String))
    (h : ∀ e ∈ tl, ¬ e.1 = n) :
    List.filter (fun e => ¬ e.1 = n) ((n, x) :: tl) = tl := by
  have hx := filter_fresh tl n h
  rw [List.filter_cons]
  have hd : (decide ¬ (n, x).1 = n) = false := by simp
  rw [hd]
  simp only [Bool.false_eq_true, if_false]
  exact hx

set_option maxRecDepth 1000000 in
/-- C1 (counterexample): with a fault injected at step 8 of the engine —
the `tag` re-creation inside the retagging stage, well after the temporary
branch was created — `delete_backups` on the demo repository propagates the
error, but the pre-operation timeline is *not* restored: the original tag
`v3` existed before and is permanently gone afterwards, even though the
managed branch itself is rolled back. -/
theorem deleteBackups_retag_fault_loses_tag :
    demo.hasTag "v3" = true ∧
    (deleteBackups (some 8) demo ["v2"]).1 = .error (.injected 8) ∧
    (deleteBackups (some 8) demo ["v2"]).2.hasTag "v3" = false ∧
    (deleteBackups (some 8) demo ["v2"]).2.headBranch = "gsb" ∧
    (deleteBackups (some 8) demo ["v2"]).2.branches = demo.branches :=
  ⟨rfl, rfl, rfl, rfl, rfl⟩

/-- C1 (amended): if a fault strikes anywhere in the *replaying* stage —
after the temporary branch has been created at the starting point and
before retagging begins, i.e. at any step `kf` with `1 ≤ kf <
1 + 3·len(new_history)` — then `rewrite_history` propagates an error,
the failing step's error is exactly the one raised inside the `try` body,
and the rollback (`except` hard-reset plus `finally` re-checkout and
temporary-branch deletion) fully restores the managed branch: the head is
`gsb` again, the branch table, tag table, working tree and index are
exactly as before the branching, and no pre-existing commit has been
deleted. -/
theorem rewriteHistory_replay_fault_rolls_back
    {sr0 : ShowResult} {newHist0 newHistory : List ShowResult}
    {snapOpt : Option ShowResult} {headBound : Option String}
    {rb : Repo} {H : String} {HObj : CommitObj} {spc : String × CommitObj}
    (r : Repo) (startingPoint : String) (revisions : List String) (kf : Nat)
    (hshow0 : gitShow r startingPoint = .ok sr0)
    (hshowAll : showAll r revisions = .ok newHist0)
    (hsnap : snapshotPhase r = (.ok (snapOpt, headBound), rb))
    (hNH : newHistory = newHist0 ++ snapOpt.toList)
    (hgsb : rb.branchTarget "gsb" = some H)
    (hHobj : rb.commitAt H = some HObj)
    (htne : ¬ tempBranchName rb = "gsb")
    (htfresh : ∀ e ∈ rb.branches, ¬ e.1 = tempBranchName rb)
    (hsp : resolveRef rb startingPoint = some spc)
    (hnotag : ∀ i, i < newHistory.length →
      rb.tags.find? (fun t => t.name = hashStr (rb.counter + i)) = none)
    (hnotH : ∀ i, i < newHistory.length → ¬ hashStr (rb.counter + i) = H)
    (hk1 : 1 ≤ kf) (hk2 : kf < 1 + 3 * newHistory.length) :
    ∃ e r5,
      rewriteHistory (some kf) r startingPoint revisions = (.error e, r5) ∧
      (∃ hd r2, rewriteTryBody (some kf) startingPoint newHistory
          (tempBranchName rb) headBound rb = (.error (e, some hd), r2)) ∧
      r5.headBranch = "gsb" ∧
      r5.branches = rb.branches ∧
      r5.tags = rb.tags ∧
      r5.worktree = HObj.tree ∧
      r5.index = HObj.tree ∧
      (∀ c, c ∈ rb.commits → c ∈ r5.commits) := by
  have hco : gitCheckoutBranch rb (tempBranchName rb) (some startingPoint) =
      (.ok (), { (rb.setBranch (tempBranchName rb) spc.1) with
        headBranch := tempBranchName rb, worktree := spc.2.tree,
        index := spc.2.tree }) := by
    unfold gitCheckoutBranch
    simp only [hsp]
  have hbrc : ({ (rb.setBranch (tempBranchName rb) spc.1) with
      headBranch := tempBranchName rb, worktree := spc.2.tree,
      index := spc.2.tree } : Repo).branches =
      (tempBranchName rb, spc.1) :: rb.branches := by
    have h1 : ({ (rb.setBranch (tempBranchName rb) spc.1) with
        headBranch := tempBranchName rb, worktree := spc.2.tree,
        index := spc.2.tree } : Repo).branches =
        (tempBranchName rb, spc.1) ::
          rb.branches.filter (fun e => ¬ e.1 = tempBranchName rb) := rfl
    rw [h1, filter_fresh rb.branches (tempBranchName rb) htfresh]
  have inv0 : MidInv rb H ({ (rb.setBranch (tempBranchName rb) spc.1) with
      headBranch := tempBranchName rb, worktree := spc.2.tree,
      index := spc.2.tree } : Repo) :=
    ⟨rfl, rfl, ⟨spc.1, hbrc⟩, fun c hc => hc, rfl, Nat.le.refl⟩
  have hres0 : resolveRef ({ (rb.setBranch (tempBranchName rb) spc.1) with
      headBranch := tempBranchName rb, worktree := spc.2.tree,
      index := spc.2.tree } : Repo) startingPoint = some spc :=
    (resolveRef_congr rb _ startingPoint rfl rfl).trans hsp
  obtain ⟨e, hd, r2, t2, hloop, hinv2, c2, hres2⟩ :=
    replayLoop_fault rb H newHistory.length kf hnotag hnotH htfresh
      newHistory startingPoint [] 1 _ inv0 ⟨spc, hres0⟩
      (Nat.le_refl _) hk1 hk2
  have hk0 : ¬ kf = 0 := by omega
  have htb : rewriteTryBody (some kf) startingPoint newHistory (tempBranchName rb)
      headBound rb = (.error (e, some hd), r2) := by
    unfold rewriteTryBody
    simp [fstep, hk0, hco, hloop]
  have hgr0 : gitReset r2 hd true = (.ok (),
      { (r2.setBranch r2.headBranch c2.1) with
        worktree := c2.2.tree, index := c2.2.tree }) := by
    unfold gitReset
    simp [hres2]
  obtain ⟨R3, hgr⟩ : ∃ R3, gitReset r2 hd true = (.ok (), R3) := ⟨_, hgr0⟩
  obtain ⟨inv3, htags3, hcommits3, hcnt3⟩ :=
    midInv_reset rb H r2 hinv2 htfresh hd true R3 hgr
  obtain ⟨x3, hbr3⟩ := inv3.branches
  have hgsb2 : (List.find? (fun e => e.1 = "gsb") rb.branches).map
      (fun e => e.2) = some H := hgsb
  have hbt3 : R3.branchTarget "gsb" = some H :=
    (branchTarget_cons_ne R3 (tempBranchName rb) x3 "gsb" rb.branches
      hbr3 htne).trans hgsb2
  have hAtH3 : R3.commitAt H = some HObj := inv3.atH.trans hHobj
  have hco2 : gitCheckoutBranch R3 "gsb" none = (.ok (),
      { R3 with
        headBranch := "gsb", worktree := HObj.tree, index := HObj.tree }) := by
    unfold gitCheckoutBranch
    simp only [hbt3, hAtH3]
  have hbt4 : Repo.branchTarget ({ R3 with
        headBranch := "gsb", worktree := HObj.tree, index := HObj.tree } : Repo)
      (tempBranchName rb) = some x3 :=
    branchTarget_cons_self _ (tempBranchName rb) x3 rb.branches hbr3
  have hne4 : ¬ (({ R3 with
        headBranch := "gsb", worktree := HObj.tree, index := HObj.tree } : Repo).headBranch = tempBranchName rb) :=
    fun h => htne h.symm
  have hdel : gitDeleteBranch ({ R3 with
        headBranch := "gsb", worktree := HObj.tree, index := HObj.tree } : Repo)
      (tempBranchName rb) =
      (.ok (), Repo.dropBranch ({ R3 with
        headBranch := "gsb", worktree := HObj.tree, index := HObj.tree } : Repo)
        (tempBranchName rb)) := by
    unfold gitDeleteBranch
    simp only [hbt4]
    rw [if_neg hne4]
  have hbr5 : (Repo.dropBranch ({ R3 with
        headBranch := "gsb", worktree := HObj.tree, index := HObj.tree } : Repo)
      (tempBranchName rb)).branches = rb.branches := by
    have h1 : (Repo.dropBranch ({ R3 with
        headBranch := "gsb", worktree := HObj.tree, index := HObj.tree } : Repo)
        (tempBranchName rb)).branches =
        List.filter (fun e => ¬ e.1 = tempBranchName rb)
          (({ R3 with
        headBranch := "gsb", worktree := HObj.tree, index := HObj.tree } : Repo).branches) := rfl
    have h2 : ({ R3 with
        headBranch := "gsb", worktree := HObj.tree, index := HObj.tree } : Repo).branches =
        (tempBranchName rb, x3) :: rb.branches := hbr3
    rw [h1, h2, filter_drop_cons (tempBranchName rb) x3 rb.branches htfresh]
  have hfin : rewriteFinally (.error e) (tempBranchName rb) R3 =
      (.error e, Repo.dropBranch ({ R3 with
        headBranch := "gsb", worktree := HObj.tree, index := HObj.tree } : Repo)
        (tempBranchName rb)) := by
    unfold rewriteFinally
    simp only [hco2]
    simp only [hdel]
  have hhand : rewriteHandler e (some hd) (tempBranchName rb) r2 =
      (.error e, Repo.dropBranch ({ R3 with
        headBranch := "gsb", worktree := HObj.tree, index := HObj.tree } : Repo)
        (tempBranchName rb)) := by
    unfold rewriteHandler
    simp only [hgr]
    exact hfin
  have hrw : rewriteHistory (some kf) r startingPoint revisions =
      (.error e, Repo.dropBranch ({ R3 with
        headBranch := "gsb", worktree := HObj.tree, index := HObj.tree } : Repo)
        (tempBranchName rb)) := by
    cases snapOpt with
    | none =>
        simp only [Option.toList_none, List.append_nil] at hNH
        unfold rewriteHistory
        simp only [hshow0, hshowAll, hsnap]
        rw [← hNH]
        simp only [htb]
        exact hhand
    | some sr =>
        simp only [Option.toList_some] at hNH
        unfold rewriteHistory
        simp only [hshow0, hshowAll, hsnap]
        rw [← hNH]
        simp only [htb]
        exact hhand
  exact ⟨e, _, hrw, ⟨hd, r2, htb⟩, rfl, hbr5, inv3.tags, rfl, rfl,
    inv3.commitsSup⟩

set_option maxRecDepth 1000000 in
/-- C1 (witness for the amended theorem): on the demo repository, deleting
the `v2` revision with a fault injected at step 2 — the second replay
primitive, inside the replaying stage — errors out and the rollback
restores branches, tags, working tree and index exactly. -/
theorem rewriteHistory_replay_fault_rolls_back_witness :
    ∃ e r5,
      rewriteHistory (some 2) demo "v2" [shortHash (hashStr 3), "v3"] =
        (.error e, r5) ∧
      r5.headBranch = "gsb" ∧ r5.branches = demo.branches ∧
      r5.tags = demo.tags ∧ r5.worktree = demoHeadCommit.tree ∧
      r5.index = demoHeadCommit.tree ∧
      (∀ c, c ∈ demo.commits → c ∈ r5.commits) := by
  obtain ⟨e, r5, h1, _, h3, h4, h5, h6, h7, h8⟩ :=
    rewriteHistory_replay_fault_rolls_back demo "v2"
      [shortHash (hashStr 3), "v3"] 2
      rfl rfl
      (show snapshotPhase demo = (.ok (none, none), demo) from rfl)
      rfl
      (show demo.branchTarget "gsb" = some (hashStr 4) from rfl)
      (show demo.commitAt (hashStr 4) = some demoHeadCommit from rfl)
      (by decide) (by decide) rfl (by decide) (by decide)
      (by decide) (by decide)
  exact ⟨e, r5, h1, h3, h4, h5, h6, h7, h8⟩

/-! ### Claim C6 — the history-length invariant of `delete_backups`

The setting: `delete_backups` matches the targets against the full history,
then rebuilds the timeline by replaying every surviving revision onto a
temporary branch.  The length of
`get_history(tagged_only=False, include_non_gsb=True)` is the length of the
parent-chain walk from the managed head; the theorem tracks that walk through
the whole success path. -/

/-- The full unfiltered query covers the whole walk, one revision per
commit. -/
theorem getHistory_all (r : Repo) :
    getHistory r false true (-1) 0 false =
      (gitLog r).map (specEmit (tagLookup r)) := by
  unfold getHistory
  rw [ghLoop_noLimit]
  have h1 : List.takeWhile (fun e => ¬ e.2.timestamp < 0) (gitLog r) =
      gitLog r := by
    induction gitLog r with
    | nil => rfl
    | cons e rest ih => simp [List.takeWhile_cons, ih]
  rw [h1]
  have h2 : List.filter (specQualifies (tagLookup r) false true) (gitLog r) =
      gitLog r := by
    rw [List.filter_eq_self]
    intro e he
    unfold specQualifies
    cases tagLookup r e.1 <;> simp
  rw [h2]

/-- One step of the walk when the commit is found. -/
theorem chainFrom_found (cs : List (String × CommitObj)) (k : String) (f : Nat)
    (e : String × CommitObj) (hf : cs.find? (fun e => e.1 = k) = some e) :
    chainFrom cs (some k) (f + 1) = e :: chainFrom cs e.2.parent f := by
  show (match cs.find? (fun e => e.1 = k) with
    | some e => e :: chainFrom cs e.2.parent f
    | none => []) = e :: chainFrom cs e.2.parent f
  rw [hf]

/-- One step of the walk when the commit is missing. -/
theorem chainFrom_notfound (cs : List (String × CommitObj)) (k : String) (f : Nat)
    (hf : cs.find? (fun e => e.1 = k) = none) :
    chainFrom cs (some k) (f + 1) = [] := by
  show (match cs.find? (fun e => e.1 = k) with
    | some e => e :: chainFrom cs e.2.parent f
    | none => []) = []
  rw [hf]

/-- A walk never exceeds its fuel. -/
theorem chainFrom_length_le (cs : List (String × CommitObj)) :
    ∀ f x, (chainFrom cs x f).length ≤ f := by
  intro f
  induction f with
  | zero => intro x; simp [chainFrom]
  | succ f ih =>
      intro x
      cases x with
      | none => simp [chainFrom]
      | some h =>
          cases hf : cs.find? (fun e => e.1 = h) with
          | none =>
              rw [chainFrom_notfound cs h f hf]
              simp
          | some e =>
              rw [chainFrom_found cs h f e hf]
              simp only [List.length_cons]
              exact Nat.succ_le_succ (ih e.2.parent)

/-- A walk that ends before its fuel runs out is insensitive to extra
fuel. -/
theorem chainFrom_mono (cs : List (String × CommitObj)) :
    ∀ f x g, f ≤ g → (chainFrom cs x f).length < f →
      chainFrom cs x g = chainFrom cs x f := by
  intro f
  induction f with
  | zero => intro x g _ hlt; exact absurd hlt (by omega)
  | succ f ih =>
      intro x g hg hlt
      cases x with
      | none =>
          cases g with
          | zero => exact absurd hg (by omega)
          | succ g => simp [chainFrom]
      | some h =>
          cases g with
          | zero => exact absurd hg (by omega)
          | succ g =>
              cases hf : cs.find? (fun e => e.1 = h) with
              | none =>
                  rw [chainFrom_notfound cs h f hf, chainFrom_notfound cs h g hf]
              | some e =>
                  rw [chainFrom_found cs h f e hf] at hlt
                  simp only [List.length_cons] at hlt
                  rw [chainFrom_found cs h g e hf, chainFrom_found cs h f e hf,
                    ih e.2.parent g (by omega) (by omega)]

/-- Prepending a commit whose hash nothing reachable carries or points to
does not change a walk that does not start at it. -/
theorem chainFrom_prepend (cs : List (String × CommitObj)) (h : String)
    (obj : CommitObj)
    (hk : ∀ c ∈ cs, ¬ c.1 = h) (hp : ∀ c ∈ cs, ¬ c.2.parent = some h) :
    ∀ f x, ¬ x = some h →
      chainFrom ((h, obj) :: cs) x f = chainFrom cs x f := by
  intro f
  induction f with
  | zero => intro x _; simp [chainFrom]
  | succ f ih =>
      intro x hx
      cases x with
      | none => simp [chainFrom]
      | some k =>
          have hkh : ¬ k = h := fun hEq => hx (by rw [hEq])
          have hhk : ¬ h = k := fun hEq => hkh hEq.symm
          have hhead : List.find? (fun e => e.1 = k) ((h, obj) :: cs) =
              List.find? (fun e => e.1 = k) cs := by
            rw [List.find?_cons]
            simp [hhk]
          cases hf : cs.find? (fun e => e.1 = k) with
          | none =>
              rw [chainFrom_notfound cs k f hf,
                chainFrom_notfound ((h, obj) :: cs) k f (hhead.trans hf)]
          | some e =>
              have hmem := List.mem_of_find?_eq_some hf
              have hpar : ¬ e.2.parent = some h := hp e hmem
              rw [chainFrom_found ((h, obj) :: cs) k f e (hhead.trans hf),
                chainFrom_found cs k f e hf, ih e.2.parent hpar]

/-- Default walk entry for positional lookups. -/
def dE : String × CommitObj :=
  ("", { parent := none, message := "", tree := [], timestamp := 0, gsb := false })

/-- Every suffix of a walk is the walk from the corresponding commit (with
the correspondingly reduced fuel). -/
theorem chainFrom_suffix (cs : List (String × CommitObj)) :
    ∀ f x j, j < (chainFrom cs x f).length →
      chainFrom cs (some (((chainFrom cs x f).getD j dE).1)) (f - j) =
        (chainFrom cs x f).drop j := by
  intro f
  induction f with
  | zero => intro x j hj; simp [chainFrom] at hj
  | succ f ih =>
      intro x j hj
      cases x with
      | none => simp [chainFrom] at hj
      | some h =>
          cases hf : cs.find? (fun e => e.1 = h) with
          | none =>
              rw [chainFrom_notfound cs h f hf] at hj
              simp at hj
          | some e =>
              rw [chainFrom_found cs h f e hf] at hj ⊢
              have he1 : e.1 = h := by
                have hs := List.find?_some hf
                simpa using hs
              cases j with
              | zero =>
                  simp only [List.getD_cons_zero, List.drop_zero, Nat.sub_zero]
                  rw [he1, chainFrom_found cs h f e hf]
              | succ j =>
                  simp only [List.getD_cons_succ, List.drop_succ_cons,
                    Nat.succ_sub_succ]
                  simp only [List.length_cons] at hj
                  exact ih e.2.parent j (by omega)

/-- The temporary rebase branch is never the managed branch. -/
theorem tempBranchName_ne_gsb (r : Repo) : ¬ tempBranchName r = "gsb" := by
  intro h
  have hl := congrArg String.length h
  unfold tempBranchName at hl
  rw [String.length_append] at hl
  rw [show ("gsb_rebase." : String).length = 11 from rfl] at hl
  rw [show ("gsb" : String).length = 3 from rfl] at hl
  omega

/-- A string is a character-prefix of itself. -/
theorem charsPfx_self (l : List Char) : charsPfx l l = true := by
  unfold charsPfx
  simp

/-- Moving a branch makes it point at the given target. -/
theorem setBranch_target_self (r : Repo) (n t : String) :
    (r.setBranch n t).branchTarget n = some t := by
  unfold Repo.setBranch Repo.branchTarget
  simp [List.find?_cons]

/-- Without a fault schedule, a step just runs the primitive. -/
theorem fstep_none {α : Type} (k : Nat) (r : Repo)
    (prim : Repo → Except PyErr α × Repo) :
    fstep none k r prim = ((prim r).1, (prim r).2, k + 1) := by
  cases hp : prim r with
  | mk a b => simp [fstep, hp]

/-- The exact state a successful commit produces. -/
theorem gitCommit_ok_shape (r : Repo) (msg h2 : String) (r2 : Repo)
    (hrun : gitCommit r msg = (.ok h2, r2)) :
    h2 = hashStr r.counter ∧
    r2 = { (r.setBranch r.headBranch (hashStr r.counter)) with
      commits := (hashStr r.counter,
        { parent := r.headTarget, message := ensureNewline msg, tree := r.index,
          timestamp := r.clock, gsb := true }) :: r.commits,
      clock := r.clock + 1, counter := r.counter + 1 } := by
  unfold gitCommit at hrun
  cases hh : r.headTarget with
  | none =>
      simp only [hh] at hrun
      simp only [Prod.mk.injEq, Except.ok.injEq] at hrun
      obtain ⟨ha, hb⟩ := hrun
      refine ⟨ha.symm, ?_⟩
      rw [← hb]
  | some p =>
      simp only [hh] at hrun
      cases hc : r.commitAt p with
      | none =>
          simp only [hc] at hrun
          exact absurd (congrArg Prod.fst hrun) (by simp)
      | some pObj =>
          simp only [hc] at hrun
          by_cases he : r.index = pObj.tree
          · rw [if_pos he] at hrun
            exact absurd (congrArg Prod.fst hrun) (by simp)
          · rw [if_neg he] at hrun
            simp only [Prod.mk.injEq, Except.ok.injEq] at hrun
            obtain ⟨ha, hb⟩ := hrun
            refine ⟨ha.symm, ?_⟩
            rw [← hb]

/-- The exact state a successful reset produces, as seen through the
observables the walk depends on. -/
theorem gitReset_ok_shape (r : Repo) (tgt : String) (hard : Bool) (r2 : Repo)
    (hrun : gitReset r tgt hard = (.ok (), r2)) :
    ∃ e, resolveRef r tgt = some e ∧
      r2.commits = r.commits ∧ r2.tags = r.tags ∧ r2.counter = r.counter ∧
      r2.headBranch = r.headBranch ∧
      r2.branchTarget r.headBranch = some e.1 := by
  rcases gitReset_cases r tgt hard with herr | ⟨ch, hres, hok⟩
  · rw [herr] at hrun
    exact absurd (congrArg Prod.fst hrun) (by simp)
  · rw [hok] at hrun
    cases hard
    · have hsub : r.setBranch r.headBranch ch.1 = r2 := congrArg Prod.snd hrun
      subst hsub
      exact ⟨ch, hres, rfl, rfl, rfl, rfl,
        setBranch_target_self r r.headBranch ch.1⟩
    · have hsub : ({ (r.setBranch r.headBranch ch.1) with
          worktree := ch.2.tree, index := ch.2.tree } : Repo) = r2 :=
        congrArg Prod.snd hrun
      subst hsub
      exact ⟨ch, hres, rfl, rfl, rfl, rfl,
        setBranch_target_self r r.headBranch ch.1⟩

/-- The exact state a successful tag creation produces. -/
theorem gitTag_ok_shape (r : Repo) (n : String) (note tgt : Option String)
    (tg : TagObj) (r2 : Repo) (hrun : gitTag r n note tgt = (.ok tg, r2)) :
    r2.commits = r.commits ∧ r2.branches = r.branches ∧
    r2.headBranch = r.headBranch ∧ r2.counter = r.counter ∧
    ∀ t ∈ r2.tags, t ∈ r.tags ∨ t.name = n := by
  unfold gitTag at hrun
  by_cases ht : r.hasTag n = true
  · rw [if_pos ht] at hrun
    exact absurd (congrArg Prod.fst hrun) (by simp)
  · rw [if_neg ht] at hrun
    cases htr : (match tgt with | some t => some t | none => r.headTarget) with
    | none =>
        simp only [htr] at hrun
        exact absurd (congrArg Prod.fst hrun) (by simp)
    | some t =>
        simp only [htr] at hrun
        cases hres : resolveRef r t with
        | none =>
            simp only [hres] at hrun
            exact absurd (congrArg Prod.fst hrun) (by simp)
        | some e =>
            simp only [hres] at hrun
            simp only [Prod.mk.injEq, Except.ok.injEq] at hrun
            obtain ⟨ha, hb⟩ := hrun
            refine ⟨by rw [← hb], by rw [← hb], by rw [← hb], by rw [← hb], ?_⟩
            rw [← hb]
            intro x hx
            have hx2 : x ∈ r.tags ++
                [{ name := n, note := note.map ensureNewline, target := e.1,
                   gsb := if (note.map ensureNewline).isSome then some true
                          else none }] := hx
            rw [List.mem_append] at hx2
            rcases hx2 with h1 | h1
            · exact Or.inl h1
            · simp at h1
              rw [h1]
              exact Or.inr rfl

/-- A tag deletion only shrinks the tag table. -/
theorem gitDeleteTag_snd_shape (r : Repo) (n : String) :
    ((gitDeleteTag r n).2).commits = r.commits ∧
    ((gitDeleteTag r n).2).branches = r.branches ∧
    ((gitDeleteTag r n).2).headBranch = r.headBranch ∧
    ((gitDeleteTag r n).2).counter = r.counter ∧
    ∀ t ∈ ((gitDeleteTag r n).2).tags, t ∈ r.tags := by
  unfold gitDeleteTag
  by_cases h : r.hasTag n = true
  · rw [if_pos h]
    refine ⟨rfl, rfl, rfl, rfl, ?_⟩
    intro t ht
    have ht2 : t ∈ r.tags.filter (fun t => ¬ t.name = n) := ht
    exact List.mem_of_mem_filter ht2
  · rw [if_neg h]
    exact ⟨rfl, rfl, rfl, rfl, fun t ht => ht⟩

/-- A successful branch deletion just drops the pointer. -/
theorem gitDeleteBranch_ok_shape (r : Repo) (n : String) (r2 : Repo)
    (hrun : gitDeleteBranch r n = (.ok (), r2)) : r2 = r.dropBranch n := by
  unfold gitDeleteBranch at hrun
  cases hb : r.branchTarget n with
  | none =>
      simp only [hb] at hrun
      exact absurd (congrArg Prod.fst hrun) (by simp)
  | some t =>
      simp only [hb] at hrun
      by_cases hh : r.headBranch = n
      · rw [if_pos hh] at hrun
        exact absurd (congrArg Prod.fst hrun) (by simp)
      · rw [if_neg hh] at hrun
        exact (congrArg Prod.snd hrun).symm

/-- The exact state a successful start-point checkout produces. -/
theorem gitCheckoutBranch_some_ok (r : Repo) (name sp : String) (r2 : Repo)
    (hrun : gitCheckoutBranch r name (some sp) = (.ok (), r2)) :
    ∃ e, resolveRef r sp = some e ∧
      r2 = { (r.setBranch name e.1) with
        headBranch := name, worktree := e.2.tree, index := e.2.tree } := by
  unfold gitCheckoutBranch at hrun
  cases hres : resolveRef r sp with
  | none =>
      simp only [hres] at hrun
      exact absurd (congrArg Prod.fst hrun) (by simp)
  | some e =>
      simp only [hres] at hrun
      exact ⟨e, rfl, (congrArg Prod.snd hrun).symm⟩

/-- Checking out an existing branch moves only the head and the working
tree. -/
theorem gitCheckoutBranch_none_existing (r : Repo) (name t : String)
    (c : CommitObj) (hbt : r.branchTarget name = some t)
    (hc : r.commitAt t = some c) :
    gitCheckoutBranch r name none =
      (.ok (), { r with
        headBranch := name, worktree := c.tree, index := c.tree }) := by
  unfold gitCheckoutBranch
  simp only [hbt, hc]

/-- Resolution is unaffected by a prepended commit whose hash is fresh and
does not share a prefix with the reference. -/
theorem resolveRef_prepend (r r' : Repo) (m : String) (obj : CommitObj)
    (ref : String) (v : String × CommitObj)
    (hc : r'.commits = (m, obj) :: r.commits)
    (ht : r'.tags = r.tags)
    (hfk : ∀ c ∈ r.commits, ¬ c.1 = m)
    (hnp : ¬ charsPfx ref.data m.data = true)
    (hres : resolveRef r ref = some v) :
    resolveRef r' ref = some v := by
  unfold resolveRef at hres ⊢
  rw [ht, hc]
  cases htag : r.tags.find? (fun t => t.name = ref) with
  | some t =>
      simp only [htag] at hres ⊢
      cases hf : r.commits.find? (fun e => e.1 = t.target) with
      | none =>
          simp only [hf] at hres
          exact absurd hres (by simp)
      | some e =>
          simp only [hf] at hres
          have hmem := List.mem_of_find?_eq_some hf
          have hme : ¬ m = t.target := by
            intro hEq
            have he1 : e.1 = t.target := by simpa using List.find?_some hf
            exact hfk e hmem (he1.trans hEq.symm)
          have hskip : List.find? (fun e => e.1 = t.target)
              ((m, obj) :: r.commits) =
              List.find? (fun e => e.1 = t.target) r.commits := by
            rw [List.find?_cons]
            simp [hme]
          rw [hskip, hf]
          exact hres
  | none =>
      simp only [htag] at hres ⊢
      cases hf : r.commits.find? (fun e => e.1 = ref) with
      | some e =>
          simp only [hf] at hres
          have hmem := List.mem_of_find?_eq_some hf
          have hme : ¬ m = ref := by
            intro hEq
            have he1 : e.1 = ref := by simpa using List.find?_some hf
            exact hfk e hmem (he1.trans hEq.symm)
          have hskip : List.find? (fun e => e.1 = ref)
              ((m, obj) :: r.commits) =
              List.find? (fun e => e.1 = ref) r.commits := by
            rw [List.find?_cons]
            simp [hme]
          rw [hskip, hf]
          exact hres
      | none =>
          simp only [hf] at hres
          have hme : ¬ m = ref := by
            intro hEq
            apply hnp
            have hd : ref.data = m.data := congrArg String.data hEq.symm
            rw [hd]
            exact charsPfx_self m.data
          have hskip : List.find? (fun e => e.1 = ref)
              ((m, obj) :: r.commits) =
              List.find? (fun e => e.1 = ref) r.commits := by
            rw [List.find?_cons]
            simp [hme]
          rw [hskip, hf]
          by_cases hlen : 4 ≤ ref.data.length
          · rw [if_pos hlen] at hres ⊢
            have hfil : List.filter (fun e => charsPfx ref.data e.1.data)
                ((m, obj) :: r.commits) =
                List.filter (fun e => charsPfx ref.data e.1.data)
                  r.commits := by
              rw [List.filter_cons]
              simp [hnp]
            rw [hfil]
            exact hres
          · rw [if_neg hlen] at hres
            exact absurd hres (by simp)

/-- The newest hash of a minted segment, or the base commit when the segment
is empty. -/
def topKey (P : String) : List (String × CommitObj) → String
  | [] => P
  | (h, _) :: _ => h

/-- A minted segment is parent-linked newest-first down to the base. -/
def Linked (P : String) : List (String × CommitObj) → Prop
  | [] => True
  | (_, o) :: rest => o.parent = some (topKey P rest) ∧ Linked P rest

/-- A segment's keys are exactly the hashes minted from the counter, newest
first. -/
def Minted (c0 : Nat) (M : List (String × CommitObj)) : Prop :=
  M.map Prod.fst = (List.range M.length).reverse.map (fun i => hashStr (c0 + i))

theorem minted_nil (c0 : Nat) : Minted c0 [] := rfl

/-- Every key of a minted segment is one of the minted hashes. -/
theorem minted_mem (c0 : Nat) (M : List (String × CommitObj)) (hM : Minted c0 M)
    (c : String × CommitObj) (hc : c ∈ M) :
    ∃ i, i < M.length ∧ c.1 = hashStr (c0 + i) := by
  have h1 : c.1 ∈ M.map Prod.fst := List.mem_map_of_mem Prod.fst hc
  rw [hM] at h1
  rw [List.mem_map] at h1
  obtain ⟨i, hi, hEq⟩ := h1
  rw [List.mem_reverse, List.mem_range] at hi
  exact ⟨i, hi, hEq.symm⟩

/-- The newest key of a nonempty minted segment. -/
theorem minted_head (c0 : Nat) (h : String) (o : CommitObj)
    (M' : List (String × CommitObj)) (hM : Minted c0 ((h, o) :: M')) :
    h = hashStr (c0 + M'.length) ∧ Minted c0 M' := by
  unfold Minted at hM ⊢
  simp only [List.map_cons, List.length_cons] at hM
  rw [List.range_succ, List.reverse_append] at hM
  simp only [List.reverse_singleton, List.singleton_append, List.map_cons] at hM
  rw [List.cons.injEq] at hM
  exact hM

/-- Minting one more hash keeps the segment minted. -/
theorem minted_cons (c0 : Nat) (M : List (String × CommitObj)) (obj : CommitObj)
    (hM : Minted c0 M) :
    Minted c0 ((hashStr (c0 + M.length), obj) :: M) := by
  unfold Minted at hM ⊢
  simp only [List.map_cons, List.length_cons]
  rw [List.range_succ, List.reverse_append]
  simp only [List.reverse_singleton, List.singleton_append, List.map_cons]
  rw [hM]

/-- The top of a segment is the base or one of the keys. -/
theorem topKey_mem (P : String) (M : List (String × CommitObj)) :
    topKey P M = P ∨ topKey P M ∈ M.map Prod.fst := by
  cases M with
  | nil => exact Or.inl rfl
  | cons e r =>
      cases e with
      | mk a b => exact Or.inr (by simp [topKey])

/-- In a linked segment, every parent pointer names a key of the segment or
the base. -/
theorem linked_parents (P : String) :
    ∀ M, Linked P M → ∀ c ∈ M, ∃ q, c.2.parent = some q ∧
      (q ∈ M.map Prod.fst ∨ q = P) := by
  intro M
  induction M with
  | nil => intro _ c hc; exact absurd hc (List.not_mem_nil c)
  | cons e rest ih =>
      intro hL c hc
      cases e with
      | mk eh eo =>
          have hL' : eo.parent = some (topKey P rest) ∧ Linked P rest := hL
          rcases List.mem_cons.mp hc with hceq | hcmem
          · subst hceq
            refine ⟨topKey P rest, hL'.1, ?_⟩
            rcases topKey_mem P rest with h | h
            · exact Or.inr h
            · exact Or.inl (by simp only [List.map_cons]; exact List.mem_cons_of_mem _ h)
          · obtain ⟨q, hq1, hq2⟩ := ih hL'.2 c hcmem
            refine ⟨q, hq1, ?_⟩
            rcases hq2 with h | h
            · exact Or.inl (by simp only [List.map_cons]; exact List.mem_cons_of_mem _ h)
            · exact Or.inr h

/-- The walk from the top of a minted, linked, fresh segment is the segment
followed by the walk from the base. -/
theorem chainFrom_linked (cs : List (String × CommitObj)) (P : String)
    (c0 B' : Nat)
    (hfk : ∀ i, i < B' → ∀ c ∈ cs, ¬ c.1 = hashStr (c0 + i))
    (hfp : ∀ i, i < B' → ∀ c ∈ cs, ¬ c.2.parent = some (hashStr (c0 + i)))
    (hfd : ∀ i j, i < B' → j < B' → ¬ i = j →
      ¬ hashStr (c0 + i) = hashStr (c0 + j))
    (hPm : ∀ i, i < B' → ¬ P = hashStr (c0 + i)) :
    ∀ M, Minted c0 M → Linked P M → M.length ≤ B' →
      chainFrom (M ++ cs) (some (topKey P M)) ((M ++ cs).length + 1) =
        M ++ chainFrom cs (some P) (cs.length + 1) := by
  intro M
  induction M with
  | nil =>
      intro _ _ _
      simp [topKey]
  | cons e M' ih =>
      intro hM hL hB
      cases e with
      | mk eh eo =>
          obtain ⟨hhead, hM'⟩ := minted_head c0 eh eo M' hM
          have hL' : eo.parent = some (topKey P M') ∧ Linked P M' := hL
          have hBlen : M'.length < B' := by
            simp only [List.length_cons] at hB
            omega
          have hkey : ∀ c ∈ M' ++ cs, ¬ c.1 = eh := by
            intro c hcmem
            rw [List.mem_append] at hcmem
            rcases hcmem with hin | hin
            · obtain ⟨i, hi, hEq⟩ := minted_mem c0 M' hM' c hin
              rw [hEq, hhead]
              exact hfd i M'.length (by omega) hBlen (by omega)
            · rw [hhead]
              exact hfk M'.length hBlen c hin
          have hpar : ∀ c ∈ M' ++ cs, ¬ c.2.parent = some eh := by
            intro c hcmem
            rw [List.mem_append] at hcmem
            rcases hcmem with hin | hin
            · obtain ⟨q, hq1, hq2⟩ := linked_parents P M' hL'.2 c hin
              rw [hq1]
              intro hctr
              have hqe : q = eh := by simpa using hctr
              rcases hq2 with hqm | hqm
              · rw [List.mem_map] at hqm
                obtain ⟨c2, hc2, hc2e⟩ := hqm
                obtain ⟨i, hi, hEq⟩ := minted_mem c0 M' hM' c2 hc2
                have : eh = hashStr (c0 + i) := by rw [← hqe, ← hc2e, hEq]
                rw [hhead] at this
                exact hfd M'.length i hBlen (by omega) (by omega) this
              · have : P = eh := hqm ▸ hqe
                rw [hhead] at this
                exact hPm M'.length hBlen this
            · rw [hhead]
              exact hfp M'.length hBlen c hin
          have htop : ¬ topKey P M' = eh := by
            rcases topKey_mem P M' with h | h
            · rw [h, hhead]
              exact hPm M'.length hBlen
            · rw [List.mem_map] at h
              obtain ⟨c2, hc2, hc2e⟩ := h
              obtain ⟨i, hi, hEq⟩ := minted_mem c0 M' hM' c2 hc2
              rw [← hc2e, hEq, hhead]
              exact hfd i M'.length (by omega) hBlen (by omega)
          have hfind : List.find? (fun c => c.1 = eh) (((eh, eo) :: M') ++ cs) =
              some (eh, eo) := by
            rw [List.cons_append, List.find?_cons]
            simp
          have htk : topKey P ((eh, eo) :: M') = eh := rfl
          rw [htk]
          have hlen2 : (((eh, eo) :: M') ++ cs).length + 1 =
              ((M' ++ cs).length + 1) + 1 := by
            simp
          rw [hlen2, chainFrom_found _ eh ((M' ++ cs).length + 1) (eh, eo) hfind]
          have hpeel : chainFrom (((eh, eo) :: M') ++ cs) eo.parent
              ((M' ++ cs).length + 1) =
              chainFrom (M' ++ cs) eo.parent ((M' ++ cs).length + 1) := by
            rw [List.cons_append]
            refine chainFrom_prepend (M' ++ cs) eh eo hkey hpar _ eo.parent ?_
            rw [hL'.1]
            intro hctr
            exact htop (by simpa using hctr)
          rw [hpeel, hL'.1, ih hM' hL'.2 (by omega)]
          simp

/-- Once the keep list is open, each further step either crosses a target
off the not-found set or appends one surviving identifier; the keep list
only ever grows at the tail. -/
theorem delLoop_phase2 (allRevs : List Revision) :
    ∀ revs i nf keep nf' keep',
      ¬ keep = [] →
      delLoop allRevs revs i nf keep = .ok (nf', keep') →
      nf.length + keep'.length = nf'.length + keep.length + revs.length ∧
      ∃ app, keep' = keep ++ app := by
  intro revs
  induction revs with
  | nil =>
      intro i nf keep nf' keep' _ hrun
      simp only [delLoop, Except.ok.injEq, Prod.mk.injEq] at hrun
      obtain ⟨h1, h2⟩ := hrun
      subst h1
      subst h2
      exact ⟨by simp, ⟨[], by simp⟩⟩
  | cons rev rest ih =>
      intro i nf keep nf' keep' hne hrun
      unfold delLoop at hrun
      have hkeepne : keep.isEmpty = false := by
        cases keep with
        | nil => exact absurd rfl hne
        | cons a b => rfl
      by_cases hm : nf.contains rev.identifier = true
      · rw [if_pos hm] at hrun
        simp only [hkeepne, Bool.false_eq_true, if_false] at hrun
        obtain ⟨heq, app, happ⟩ :=
          ih (i + 1) (nf.erase rev.identifier) keep nf' keep' hne hrun
        have hmem : rev.identifier ∈ nf := by simpa using hm
        have hlen : (nf.erase rev.identifier).length = nf.length - 1 :=
          List.length_erase_of_mem hmem
        have hpos : 0 < nf.length := List.length_pos_of_mem hmem
        refine ⟨?_, app, happ⟩
        simp only [List.length_cons]
        omega
      · rw [if_neg hm] at hrun
        simp only [hkeepne, Bool.false_eq_true, if_false] at hrun
        obtain ⟨heq, app, happ⟩ :=
          ih (i + 1) nf (keep ++ [rev.identifier]) nf' keep' (by simp) hrun
        constructor
        · simp only [List.length_append, List.length_cons,
            List.length_nil] at heq ⊢
          omega
        · refine ⟨rev.identifier :: app, ?_⟩
          rw [happ, List.append_assoc]
          rfl

/-- A successful matching pass that opened the keep list pins down the
starting-point identifier and the keep-list length: the first match happened
at some oldest-first position `i0 ≥ 1`, the starting point is the revision
just before it, and each later step crossed off a target or kept a
survivor. -/
theorem delLoop_first_match (allRevs : List Revision) :
    ∀ revs i nf nf' sp keep',
      delLoop allRevs revs i nf [] = .ok (nf', sp :: keep') →
      ∃ i0, i ≤ i0 ∧ ¬ i0 = 0 ∧ i0 < i + revs.length ∧
        sp = (allRevs.getD (allRevs.length - i0) default).identifier ∧
        nf.length + (sp :: keep').length + i0 =
          nf'.length + 1 + i + revs.length := by
  intro revs
  induction revs with
  | nil =>
      intro i nf nf' sp keep' hrun
      simp only [delLoop, Except.ok.injEq, Prod.mk.injEq] at hrun
      exact absurd hrun.2 (by simp)
  | cons rev rest ih =>
      intro i nf nf' sp keep' hrun
      unfold delLoop at hrun
      by_cases hm : nf.contains rev.identifier = true
      · rw [if_pos hm] at hrun
        simp only [List.isEmpty_nil, if_true] at hrun
        by_cases hi : i = 0
        · rw [if_pos hi] at hrun
          exact absurd hrun (by simp)
        · rw [if_neg hi] at hrun
          obtain ⟨heq, app, happ⟩ :=
            delLoop_phase2 allRevs rest (i + 1) (nf.erase rev.identifier)
              [(allRevs.getD (allRevs.length - i) default).identifier] nf'
              (sp :: keep') (by simp) (by simpa using hrun)
          have hsp : sp =
              (allRevs.getD (allRevs.length - i) default).identifier := by
            rw [List.singleton_append] at happ
            exact (List.cons.injEq _ _ _ _ ▸ happ).1
          have hmem : rev.identifier ∈ nf := by simpa using hm
          have hlen : (nf.erase rev.identifier).length = nf.length - 1 :=
            List.length_erase_of_mem hmem
          have hpos : 0 < nf.length := List.length_pos_of_mem hmem
          refine ⟨i, Nat.le_refl i, hi,
            by simp only [List.length_cons]; omega, hsp, ?_⟩
          simp only [List.length_cons, List.length_nil] at heq ⊢
          omega
      · rw [if_neg hm] at hrun
        simp only [List.isEmpty_nil, if_true] at hrun
        obtain ⟨i0, h1, h0, h2, h3, h4⟩ := ih (i + 1) nf nf' sp keep' hrun
        refine ⟨i0, by omega, h0, ?_, h3, ?_⟩
        · simp only [List.length_cons]
          omega
        · simp only [List.length_cons] at h4 ⊢
          omega

/-- The accumulator update one replayed survivor performs. -/
def accStep (acc : List (TagObj × String)) (newHash : String) :
    ShowResult → List (TagObj × String)
  | .commit _ _ _ => acc
  | .tagRef tg _ _ => acc ++ [(tg, newHash)]

/-- A fault-free replay pass mints exactly one linked, fresh commit per
survivor: the commit store grows by a minted, parent-linked segment over the
starting-point commit, tags are untouched, and the returned head is (and
resolves to) the top of the segment. -/
theorem replayLoop_ok_shape (rb : Repo) (P : String) (B' : Nat)
    (hft : ∀ i, i < B' → ∀ t ∈ rb.tags, ¬ t.name = hashStr (rb.counter + i)) :
    ∀ hist head acc t r head' acc' r' t' M,
      r.commits = M ++ rb.commits →
      r.tags = rb.tags →
      r.counter = rb.counter + M.length →
      Minted rb.counter M →
      Linked P M →
      (∃ ob, resolveRef r head = some (topKey P M, ob)) →
      M.length + hist.length ≤ B' →
      replayLoop none hist head acc t r = (.ok (head', acc'), r', t') →
      ∃ M', r'.commits = M' ++ rb.commits ∧ r'.tags = rb.tags ∧
        r'.counter = rb.counter + M'.length ∧
        Minted rb.counter M' ∧ Linked P M' ∧
        M'.length = M.length + hist.length ∧
        (∃ ob, resolveRef r' head' = some (topKey P M', ob)) ∧
        ((hist = [] ∧ head' = head ∧ M' = M) ∨ head' = topKey P M') ∧
        (∀ p ∈ acc', p ∈ acc ∨ ∃ sr ∈ hist, ∃ th tm,
          sr = ShowResult.tagRef p.1 th tm) := by
  intro hist
  induction hist with
  | nil =>
      intro head acc t r head' acc' r' t' M hcom htags hcnt hM hL hres hcap hrun
      simp only [replayLoop, Prod.mk.injEq, Except.ok.injEq] at hrun
      obtain ⟨⟨hh, ha⟩, hr, ht⟩ := hrun
      subst hh
      subst ha
      subst hr
      refine ⟨M, hcom, htags, hcnt, hM, hL, by simp, hres,
        Or.inl ⟨rfl, rfl, rfl⟩, fun p hp => Or.inl hp⟩
  | cons sr rest ih =>
      intro head acc t r head' acc' r' t' M hcom htags hcnt hM hL hres hcap hrun
      obtain ⟨ob, hres0⟩ := hres
      cases hgA : gitReset r (replayTarget sr) true with
      | mk resA rA =>
        cases resA with
        | error eA =>
            simp only [replayLoop, fstep_none, hgA] at hrun
            exact absurd hrun (by simp)
        | ok uA =>
          cases uA
          obtain ⟨chA, hresA, hcomA, htagsA, hcntA, hhbA, hbtA⟩ :=
            gitReset_ok_shape r (replayTarget sr) true rA hgA
          cases hgB : gitReset rA head false with
          | mk resB rB =>
            cases resB with
            | error eB =>
                simp only [replayLoop, fstep_none, hgA, hgB] at hrun
                exact absurd hrun (by simp)
            | ok uB =>
              cases uB
              obtain ⟨chB, hresB, hcomB, htagsB, hcntB, hhbB, hbtB⟩ :=
                gitReset_ok_shape rA head false rB hgB
              have hresArA : resolveRef rA head = some (topKey P M, ob) := by
                rw [resolveRef_congr r rA head htagsA hcomA]
                exact hres0
              have hchB : chB = (topKey P M, ob) := by
                rw [hresArA] at hresB
                exact (Option.some.inj hresB).symm
              have hhtB : rB.headTarget = some (topKey P M) := by
                unfold Repo.headTarget
                rw [hhbB, hbtB, hchB]
              cases hgC : gitCommit rB (replayMessage sr) with
              | mk resC rC =>
                cases resC with
                | error eC =>
                    simp only [replayLoop, fstep_none, hgA, hgB, hgC] at hrun
                    exact absurd hrun (by simp)
                | ok newHash =>
                  obtain ⟨hC1, hC2⟩ :=
                    gitCommit_ok_shape rB (replayMessage sr) newHash rC hgC
                  have hcntB2 : rB.counter = rb.counter + M.length := by
                    rw [hcntB, hcntA, hcnt]
                  rw [hcntB2] at hC1 hC2
                  have hcomC : rC.commits =
                      (hashStr (rb.counter + M.length),
                        { parent := rB.headTarget,
                          message := ensureNewline (replayMessage sr),
                          tree := rB.index, timestamp := rB.clock,
                          gsb := true }) :: (M ++ rb.commits) := by
                    rw [hC2]
                    show (hashStr (rb.counter + M.length), _) :: rB.commits = _
                    rw [hcomB, hcomA, hcom]
                  have htagsC : rC.tags = rb.tags := by
                    rw [hC2]
                    show rB.tags = rb.tags
                    rw [htagsB, htagsA, htags]
                  have hcntC : rC.counter = rb.counter + (M.length + 1) := by
                    rw [hC2]
                    show rb.counter + M.length + 1 = rb.counter + (M.length + 1)
                    omega
                  have hcapM : M.length < B' := by
                    simp only [List.length_cons] at hcap
                    omega
                  have hntC : rC.tags.find?
                      (fun tg => tg.name =
                        hashStr (rb.counter + M.length)) = none := by
                    rw [htagsC, List.find?_eq_none]
                    intro x hx
                    simp only [decide_eq_true_eq]
                    exact hft M.length hcapM x hx
                  have hresC : resolveRef rC (hashStr (rb.counter + M.length)) =
                      some (hashStr (rb.counter + M.length),
                        { parent := rB.headTarget,
                          message := ensureNewline (replayMessage sr),
                          tree := rB.index, timestamp := rB.clock,
                          gsb := true }) :=
                    resolveRef_fresh rC _ _ (M ++ rb.commits) hcomC hntC
                  have hM1 : Minted rb.counter
                      ((hashStr (rb.counter + M.length),
                        { parent := rB.headTarget,
                          message := ensureNewline (replayMessage sr),
                          tree := rB.index, timestamp := rB.clock,
                          gsb := true }) :: M) :=
                    minted_cons rb.counter M _ hM
                  have hL1 : Linked P
                      ((hashStr (rb.counter + M.length),
                        { parent := rB.headTarget,
                          message := ensureNewline (replayMessage sr),
                          tree := rB.index, timestamp := rB.clock,
                          gsb := true }) :: M) := ⟨hhtB, hL⟩
                  have hrun2 : replayLoop none rest newHash
                      (accStep acc newHash sr) (t + 3) rC =
                      (.ok (head', acc'), r', t') := by
                    cases sr with
                    | commit a b c =>
                        show replayLoop none rest newHash acc (t + 3) rC = _
                        have hstep : replayLoop none
                            (ShowResult.commit a b c :: rest) head acc t r =
                            replayLoop none rest newHash acc (t + 3) rC := by
                          simp [replayLoop, fstep_none, hgA, hgB, hgC]
                        rw [← hstep]
                        exact hrun
                    | tagRef tg th tm =>
                        show replayLoop none rest newHash
                          (acc ++ [(tg, newHash)]) (t + 3) rC = _
                        have hstep : replayLoop none
                            (ShowResult.tagRef tg th tm :: rest) head acc t r =
                            replayLoop none rest newHash
                              (acc ++ [(tg, newHash)]) (t + 3) rC := by
                          simp [replayLoop, fstep_none, hgA, hgB, hgC]
                        rw [← hstep]
                        exact hrun
                  obtain ⟨M', hcom', htags', hcnt', hM', hL', hlen', hres',
                      hhead', hacc'⟩ :=
                    ih newHash (accStep acc newHash sr)
                      (t + 3) rC head' acc' r' t'
                      ((hashStr (rb.counter + M.length),
                        { parent := rB.headTarget,
                          message := ensureNewline (replayMessage sr),
                          tree := rB.index, timestamp := rB.clock,
                          gsb := true }) :: M)
                      (by rw [List.cons_append]; exact hcomC)
                      htagsC
                      (by simp only [List.length_cons]; exact hcntC)
                      hM1 hL1
                      ⟨_, by rw [hC1]; exact hresC⟩
                      (by simp only [List.length_cons]
                          simp only [List.length_cons] at hcap
                          omega)
                      hrun2
                  refine ⟨M', hcom', htags', hcnt', hM', hL', ?_, hres', ?_, ?_⟩
                  · simp only [List.length_cons] at hlen'
                    simp only [List.length_cons]
                    omega
                  · rcases hhead' with ⟨hre, hhe, hMe⟩ | hhe
                    · subst hre
                      refine Or.inr ?_
                      rw [hhe, hC1, hMe]
                      rfl
                    · exact Or.inr hhe
                  · intro p hp
                    rcases hacc' p hp with hin | ⟨sr2, hsr2, th, tm, hEq⟩
                    · cases sr with
                      | commit a b c => exact Or.inl hin
                      | tagRef tg th2 tm2 =>
                          have hin2 : p ∈ acc ++ [(tg, newHash)] := hin
                          rw [List.mem_append] at hin2
                          rcases hin2 with hin2 | hin2
                          · exact Or.inl hin2
                          · simp at hin2
                            refine Or.inr ⟨ShowResult.tagRef tg th2 tm2,
                              List.mem_cons_self _ _, th2, tm2, ?_⟩
                            rw [hin2]
                    · exact Or.inr ⟨sr2, List.mem_cons_of_mem sr hsr2, th, tm, hEq⟩

/-- Every commit a walk returns comes from the store. -/
theorem chainFrom_subset (cs : List (String × CommitObj)) :
    ∀ f x c, c ∈ chainFrom cs x f → c ∈ cs := by
  intro f
  induction f with
  | zero => intro x c hc; simp [chainFrom] at hc
  | succ f ih =>
      intro x c hc
      cases x with
      | none => simp [chainFrom] at hc
      | some h =>
          cases hf : cs.find? (fun e => e.1 = h) with
          | none =>
              rw [chainFrom_notfound cs h f hf] at hc
              simp at hc
          | some e =>
              rw [chainFrom_found cs h f e hf] at hc
              rcases List.mem_cons.mp hc with h1 | h1
              · subst h1
                exact List.mem_of_find?_eq_some hf
              · exact ih e.2.parent c h1

/-- A show that returns a tag object got it from the tag table. -/
theorem gitShow_tagRef_mem (r : Repo) (ref : String) (tg : TagObj)
    (th tm : String) (hrun : gitShow r ref = .ok (.tagRef tg th tm)) :
    tg ∈ r.tags := by
  unfold gitShow at hrun
  cases hft : r.tags.find? (fun t => t.name = ref) with
  | some t =>
      simp only [hft] at hrun
      cases hca : r.commitAt t.target with
      | some c =>
          simp only [hca] at hrun
          have hmem := List.mem_of_find?_eq_some hft
          simp only [Except.ok.injEq, ShowResult.tagRef.injEq] at hrun
          rw [← hrun.1]
          exact hmem
      | none =>
          simp only [hca] at hrun
          exact absurd hrun (by simp)
  | none =>
      simp only [hft] at hrun
      cases hres : resolveRef r ref with
      | some e =>
          simp only [hres] at hrun
          exact absurd hrun (by simp)
      | none =>
          simp only [hres] at hrun
          exact absurd hrun (by simp)

/-- A successful batch show yields one result per reference, and any tag
object it returns comes from the tag table. -/
theorem showAll_ok (r : Repo) : ∀ refs srs, showAll r refs = .ok srs →
    srs.length = refs.length ∧
    ∀ sr ∈ srs, ∀ tg th tm, sr = ShowResult.tagRef tg th tm → tg ∈ r.tags := by
  intro refs
  induction refs with
  | nil =>
      intro srs hrun
      simp only [showAll] at hrun
      have hn : ([] : List ShowResult) = srs := by simpa using hrun
      subst hn
      exact ⟨rfl, fun sr hsr => absurd hsr (List.not_mem_nil sr)⟩
  | cons ref rest ih =>
      intro srs hrun
      unfold showAll at hrun
      cases hs : gitShow r ref with
      | error e =>
          simp only [hs] at hrun
          exact absurd hrun (by simp)
      | ok sr0 =>
          simp only [hs] at hrun
          cases hrest : showAll r rest with
          | error e =>
              simp only [hrest] at hrun
              exact absurd hrun (by simp)
          | ok srs0 =>
              simp only [hrest] at hrun
              have hc : sr0 :: srs0 = srs := by simpa using hrun
              subst hc
              obtain ⟨hl, hm⟩ := ih srs0 hrest
              refine ⟨by simp [hl], ?_⟩
              intro sr hsr tg th tm hEq
              rcases List.mem_cons.mp hsr with h1 | h1
              · subst h1
                exact gitShow_tagRef_mem r ref tg th tm (by rw [← hEq]; exact hs)
              · exact hm sr h1 tg th tm hEq

/-- The `finally` suite always surfaces an error result it was given. -/
theorem rewriteFinally_error (e : PyErr) (bn : String) (r : Repo) :
    ∃ e2 r2, rewriteFinally (.error e) bn r = (.error e2, r2) := by
  unfold rewriteFinally
  cases h1 : gitCheckoutBranch r "gsb" none with
  | mk res1 rA =>
    cases res1 with
    | error e2 => exact ⟨e2, rA, by simp⟩
    | ok u =>
        cases u
        cases h2 : gitDeleteBranch rA bn with
        | mk res2 rB =>
          cases res2 with
          | error e3 => exact ⟨e3, rB, by simp [h2]⟩
          | ok u2 =>
              cases u2
              exact ⟨e, rB, by simp [h2]⟩

/-- The `except` handler always re-raises. -/
theorem rewriteHandler_error (e : PyErr) (ho : Option String) (bn : String)
    (r : Repo) :
    ∃ e2 r2, rewriteHandler e ho bn r = (.error e2, r2) := by
  unfold rewriteHandler
  cases ho with
  | none => exact rewriteFinally_error .nameError bn r
  | some h =>
      cases hg : gitReset r h true with
      | mk res rA =>
        cases res with
        | ok u =>
            cases u
            obtain ⟨e2, r2, hfin⟩ := rewriteFinally_error e bn rA
            exact ⟨e2, r2, by simp [hg, hfin]⟩
        | error eR =>
            obtain ⟨e2, r2, hfin⟩ := rewriteFinally_error eR bn rA
            exact ⟨e2, r2, by simp [hg, hfin]⟩

/-- Deleting a branch never touches commits, tags or the counter. -/
theorem gitDeleteBranch_snd (r : Repo) (n : String) :
    ((gitDeleteBranch r n).2).commits = r.commits ∧
    ((gitDeleteBranch r n).2).tags = r.tags ∧
    ((gitDeleteBranch r n).2).counter = r.counter := by
  unfold gitDeleteBranch
  cases hb : r.branchTarget n with
  | none => simp [hb]
  | some t =>
      by_cases hh : r.headBranch = n
      · simp [hb, hh]
      · simp [hb, hh, Repo.dropBranch]

/-- Checking a branch out without a start point never touches commits, tags
or the counter. -/
theorem gitCheckoutBranch_none_snd (r : Repo) (n : String) :
    ((gitCheckoutBranch r n none).2).commits = r.commits ∧
    ((gitCheckoutBranch r n none).2).tags = r.tags ∧
    ((gitCheckoutBranch r n none).2).counter = r.counter := by
  unfold gitCheckoutBranch
  cases hb : r.branchTarget n with
  | some t =>
      cases hc : r.commitAt t with
      | some c => simp [hb, hc]
      | none => simp [hb, hc]
  | none =>
      cases hh : r.headTarget with
      | some h =>
          cases hc : r.commitAt h with
          | some c => simp [hb, hh, hc, Repo.setBranch]
          | none => simp [hb, hh, hc]
      | none => simp [hb, hh]

/-- Every error a batched force-add raises is an OS error. -/
theorem forceAddFiles_error_shape : ∀ (files : List String) (r : Repo)
    (e : PyErr) (r2 : Repo), forceAddFiles r files = (.error e, r2) →
    ∃ s, e = .osError s := by
  intro files
  induction files with
  | nil =>
      intro r e r2 hrun
      simp only [forceAddFiles] at hrun
      exact absurd (congrArg Prod.fst hrun) (by simp)
  | cons n rest ih =>
      intro r e r2 hrun
      unfold forceAddFiles at hrun
      cases h1 : forceAddOne r n with
      | mk res1 r1 =>
        cases res1 with
        | ok u =>
            cases u
            simp only [h1] at hrun
            exact ih r1 e r2 hrun
        | error e1 =>
            simp only [h1] at hrun
            have he : e1 = e := by
              have := congrArg Prod.fst hrun
              simpa using this
            subst he
            unfold forceAddOne at h1
            cases hf : r.worktree.find? (fun x => x.1 = n) with
            | some x =>
                simp only [hf] at h1
                exact absurd (congrArg Prod.fst h1) (by simp)
            | none =>
                simp only [hf] at h1
                have := congrArg Prod.fst h1
                simp only [Prod.mk.injEq] at this
                exact ⟨_, by
                  have h2 := this
                  simp at h2
                  exact h2.symm⟩

/-- The state and result shapes `create_backup` can leave behind when asked
for no tag: any error leaves the timeline observables untouched; success
mints exactly one fresh commit on the head. -/
theorem createBackup_none_shape (r0 : Repo) (res : Except PyErr String)
    (r1 : Repo) (hrun : createBackup r0 none none = (res, r1)) :
    ((∃ e, res = .error e) ∧
      r1.commits = r0.commits ∧ r1.tags = r0.tags ∧
      r1.counter = r0.counter) ∨
    (∃ h obj, res = .ok h ∧ obj.parent = r0.headTarget ∧
      r1.commits = (hashStr r0.counter, obj) :: r0.commits ∧
      r1.tags = r0.tags ∧ r1.counter = r0.counter + 1) := by
  unfold createBackup at hrun
  cases hfa : forceAddFiles (stageAdd r0 r0.patterns) requiredFiles with
  | mk resFA rFA =>
    have hFA := forceAddFiles_modifies_only_index requiredFiles
      (stageAdd r0 r0.patterns) resFA rFA hfa
    cases resFA with
    | error e =>
        simp only [hfa] at hrun
        have h1 : Except.error e = res := congrArg Prod.fst hrun
        have h2 : rFA = r1 := congrArg Prod.snd hrun
        subst h2
        exact Or.inl ⟨⟨e, h1.symm⟩, hFA.1, hFA.2.2.2.1, hFA.2.1⟩
    | ok u =>
        cases u
        simp only [hfa] at hrun
        cases hgc : gitCommit rFA (pyOr none "GSB-managed commit") with
        | mk resC rC =>
          cases resC with
          | ok h =>
              simp only [hgc] at hrun
              rw [show pyTruthy none = false from rfl] at hrun
              simp only [Bool.false_eq_true, if_false] at hrun
              obtain ⟨hC1, hC2⟩ := gitCommit_ok_shape rFA _ h rC hgc
              have h1 : Except.ok h = res := congrArg Prod.fst hrun
              have h2 : rC = r1 := congrArg Prod.snd hrun
              subst h2
              refine Or.inr ⟨h, { parent := rFA.headTarget,
                                  message := ensureNewline
                                    (pyOr none "GSB-managed commit"),
                                  tree := rFA.index, timestamp := rFA.clock,
                                  gsb := true },
                h1.symm, ?_, ?_, ?_, ?_⟩
              · show rFA.headTarget = r0.headTarget
                exact hFA.2.2.1
              · rw [hC2]
                show (hashStr rFA.counter, _) :: rFA.commits = _
                rw [hFA.1, hFA.2.1]
                rfl
              · rw [hC2]
                show rFA.tags = r0.tags
                exact hFA.2.2.2.1
              · rw [hC2]
                show rFA.counter + 1 = r0.counter + 1
                rw [hFA.2.1]
                rfl
          | error e =>
              simp only [hgc] at hrun
              have hrC : rC = rFA := gitCommit_error_state rFA _ e rC hgc
              subst hrC
              by_cases hVE : e.isValueError = true
              · rw [if_pos hVE] at hrun
                rw [show pyTruthy none = false from rfl] at hrun
                simp only [Bool.false_eq_true, if_false] at hrun
                have h1 : Except.error e = res := congrArg Prod.fst hrun
                have h2 : rC = r1 := congrArg Prod.snd hrun
                subst h2
                exact Or.inl ⟨⟨e, h1.symm⟩, hFA.1, hFA.2.2.2.1, hFA.2.1⟩
              · rw [if_neg hVE] at hrun
                have h1 : Except.error e = res := congrArg Prod.fst hrun
                have h2 : rC = r1 := congrArg Prod.snd hrun
                subst h2
                exact Or.inl ⟨⟨e, h1.symm⟩, hFA.1, hFA.2.2.2.1, hFA.2.1⟩

/-- The state shapes the snapshot phase can succeed with: the repository
gains at most one fresh commit (whose parent is the old head) and nothing
else the walk depends on changes; any tag object inside the snapshot show
result comes from the original tag table. -/
theorem snapshotPhase_ok_shape (r0 : Repo) (snapOpt : Option ShowResult)
    (headBound : Option String) (rb : Repo)
    (hrun : snapshotPhase r0 = (.ok (snapOpt, headBound), rb)) :
    ∃ MS : List (String × CommitObj),
      rb.commits = MS ++ r0.commits ∧ Minted r0.counter MS ∧
      rb.counter = r0.counter + MS.length ∧ rb.tags = r0.tags ∧
      MS.length ≤ 1 ∧ snapOpt.toList.length ≤ MS.length ∧
      (∀ c ∈ MS, c.2.parent = r0.headTarget) ∧
      (∀ sr tg th tm, snapOpt = some sr → sr = ShowResult.tagRef tg th tm →
        tg ∈ r0.tags) := by
  unfold snapshotPhase at hrun
  cases hcb : createBackup r0 none none with
  | mk resCB r1 =>
    rcases createBackup_none_shape r0 resCB r1 hcb with
      ⟨⟨e, hres⟩, hc, ht, hn⟩ | ⟨h, obj, hres, hpar, hc, ht, hn⟩
    · subst hres
      simp only [hcb] at hrun
      by_cases hVE : e.isValueError = true
      · rw [if_pos hVE] at hrun
        simp only [Prod.mk.injEq, Except.ok.injEq] at hrun
        obtain ⟨⟨hso, hhb⟩, hrb⟩ := hrun
        subst hso
        subst hrb
        refine ⟨[], by simpa using hc, minted_nil r0.counter, by simpa using hn,
          ht, by simp, by simp, ?_, ?_⟩
        · intro c hcm
          exact absurd hcm (List.not_mem_nil c)
        · intro sr tg th tm hso2
          exact absurd hso2 (by simp)
      · rw [if_neg hVE] at hrun
        exact absurd (congrArg Prod.fst hrun) (by simp)
    · subst hres
      simp only [hcb] at hrun
      have hMS : r1.commits = [(hashStr r0.counter, obj)] ++ r0.commits := by
        simpa using hc
      have hMinted : Minted r0.counter [(hashStr r0.counter, obj)] := rfl
      have hPar : ∀ c ∈ [(hashStr r0.counter, obj)],
          c.2.parent = r0.headTarget := by
        intro c hcm
        simp at hcm
        rw [hcm]
        exact hpar
      cases hshow : gitShow r1 h with
      | ok sr0 =>
          simp only [hshow] at hrun
          simp only [Prod.mk.injEq, Except.ok.injEq] at hrun
          obtain ⟨⟨hso, hhb⟩, hrb⟩ := hrun
          subst hso
          subst hrb
          refine ⟨[(hashStr r0.counter, obj)], hMS, hMinted,
            by simpa using hn, ht, by simp, by simp, hPar, ?_⟩
          intro sr tg th tm hso2 hEq
          have hsr : sr = sr0 := by
            simpa using hso2.symm
          subst hsr
          rw [← ht]
          exact gitShow_tagRef_mem r1 h tg th tm (by rw [← hEq]; exact hshow)
      | error e2 =>
          simp only [hshow] at hrun
          by_cases hVE : e2.isValueError = true
          · rw [if_pos hVE] at hrun
            simp only [Prod.mk.injEq, Except.ok.injEq] at hrun
            obtain ⟨⟨hso, hhb⟩, hrb⟩ := hrun
            subst hso
            subst hrb
            refine ⟨[(hashStr r0.counter, obj)], hMS, hMinted,
              by simpa using hn, ht, by simp, by simp, hPar, ?_⟩
            intro sr tg th tm hso2
            exact absurd hso2 (by simp)
          · rw [if_neg hVE] at hrun
            exact absurd (congrArg Prod.fst hrun) (by simp)

/-- A fault-free retag pass recreates tags without touching anything the
walk depends on; provided every deleted-then-recreated name satisfies a
predicate the old table satisfied, the new table satisfies it too. -/
theorem retagLoop_ok_shape (Q : String → Prop) :
    ∀ (acc : List (TagObj × String)) (t : Nat) (r r2 : Repo) (t2 : Nat),
      retagLoop none acc t r = (.ok (), r2, t2) →
      (∀ t3 ∈ r.tags, Q t3.name) →
      (∀ p ∈ acc, Q p.1.name) →
      r2.commits = r.commits ∧ r2.branches = r.branches ∧
      r2.headBranch = r.headBranch ∧ r2.counter = r.counter ∧
      (∀ t3 ∈ r2.tags, Q t3.name) := by
  intro acc
  induction acc with
  | nil =>
      intro t r r2 t2 hrun hQ _
      simp only [retagLoop, Prod.mk.injEq] at hrun
      obtain ⟨_, hr, _⟩ := hrun
      subst hr
      exact ⟨rfl, rfl, rfl, rfl, hQ⟩
  | cons p rest ih =>
      intro t r r2 t2 hrun hQ hA
      cases p with
      | mk tg target =>
        cases hgd : gitDeleteTag r tg.name with
        | mk resD rD =>
          cases resD with
          | error e =>
              simp only [retagLoop, fstep_none, hgd] at hrun
              exact absurd hrun (by simp)
          | ok uD =>
              cases uD
              have hrD := gitDeleteTag_snd_shape r tg.name
              have hrDeq : (gitDeleteTag r tg.name).2 = rD := by rw [hgd]
              rw [hrDeq] at hrD
              obtain ⟨hc1, hb1, hh1, hn1, ht1⟩ := hrD
              cases hgt : gitTag rD tg.name tg.note (some target) with
              | mk resT rT =>
                cases resT with
                | error e =>
                    simp only [retagLoop, fstep_none, hgd, hgt] at hrun
                    exact absurd hrun (by simp)
                | ok tg2 =>
                    obtain ⟨hc2, hb2, hh2, hn2, ht2⟩ :=
                      gitTag_ok_shape rD tg.name tg.note (some target) tg2
                        rT hgt
                    have hrun2 : retagLoop none rest (t + 2) rT =
                        (.ok (), r2, t2) := by
                      have hstep : retagLoop none ((tg, target) :: rest) t r =
                          retagLoop none rest (t + 2) rT := by
                        simp [retagLoop, fstep_none, hgd, hgt]
                      rw [← hstep]
                      exact hrun
                    have hQT : ∀ t3 ∈ rT.tags, Q t3.name := by
                      intro t3 h3
                      rcases ht2 t3 h3 with hin | hname
                      · exact hQ t3 (ht1 t3 hin)
                      · rw [hname]
                        exact hA (tg, target) (List.mem_cons_self _ _)
                    obtain ⟨g1, g2, g3, g4, g5⟩ := ih (t + 2) rT r2 t2 hrun2 hQT
                      (fun q hq => hA q (List.mem_cons_of_mem (tg, target) hq))
                    exact ⟨g1.trans (hc2.trans hc1), g2.trans (hb2.trans hb1),
                      g3.trans (hh2.trans hh1), g4.trans (hn2.trans hn1), g5⟩

/-- The success tail of the rewrite engine: once the references are
validated and the snapshot is taken, a successful branching + replay +
retag + finalize + `finally` pass leaves the managed head on a chain that
is exactly one fresh commit per replayed entry on top of the starting-point
commit's chain. -/
theorem rewrite_tail_length
    (rb r7 r1 : Repo) (NH : List ShowResult) (sp hF hres : String)
    (headBound : Option String)
    (P : String) (Pobj : CommitObj) (B' : Nat) (cP : Nat)
    (hB : NH.length ≤ B')
    (hfk : ∀ i, i < B' → ∀ c ∈ rb.commits, ¬ c.1 = hashStr (rb.counter + i))
    (hfp : ∀ i, i < B' → ∀ c ∈ rb.commits,
      ¬ c.2.parent = some (hashStr (rb.counter + i)))
    (hfd : ∀ i j, i < B' → j < B' → ¬ i = j →
      ¬ hashStr (rb.counter + i) = hashStr (rb.counter + j))
    (hft : ∀ i, i < B' → ∀ t ∈ rb.tags, ¬ t.name = hashStr (rb.counter + i))
    (hPm : ∀ i, i < B' → ¬ P = hashStr (rb.counter + i))
    (hresSP : resolveRef rb sp = some (P, Pobj))
    (hProv : ∀ sr ∈ NH, ∀ tg th tm, sr = ShowResult.tagRef tg th tm →
      tg ∈ rb.tags)
    (hchainP : (chainFrom rb.commits (some P)
      (rb.commits.length + 1)).length = cP)
    (htb : rewriteTryBody none sp NH (tempBranchName rb) headBound rb =
      (.ok hF, r7))
    (hfin : rewriteFinally (.ok hF) (tempBranchName rb) r7 =
      (.ok hres, r1)) :
    (gitLog r1).length = NH.length + cP := by
  unfold rewriteTryBody at htb
  cases hco : gitCheckoutBranch rb (tempBranchName rb) (some sp) with
  | mk resCO rc0 =>
    cases resCO with
    | error e =>
        simp only [fstep_none, hco] at htb
        exact absurd htb (by simp)
    | ok u =>
      cases u
      obtain ⟨eSP, hresSP2, hrc0⟩ :=
        gitCheckoutBranch_some_ok rb (tempBranchName rb) sp rc0 hco
      have hrc0c : rc0.commits = rb.commits := by rw [hrc0]; rfl
      have hrc0t : rc0.tags = rb.tags := by rw [hrc0]; rfl
      have hrc0n : rc0.counter = rb.counter := by rw [hrc0]; rfl
      cases hrl : replayLoop none NH sp [] 1 rc0 with
      | mk resRL rl2 =>
        cases rl2 with
        | mk r5 t5 =>
          cases resRL with
          | error epr =>
              cases epr with
              | mk e hd =>
                  simp only [fstep_none, hco, hrl] at htb
                  exact absurd htb (by simp)
          | ok hp =>
            cases hp with
            | mk headF accF =>
              obtain ⟨M', hcom5, htags5, hcnt5, hM5, hL5, hlen5, hres5,
                  hAB, hacc5⟩ :=
                replayLoop_ok_shape rb P B' hft NH sp [] 1 rc0 headF accF
                  r5 t5 []
                  (by rw [hrc0c]; exact (List.nil_append rb.commits).symm)
                  hrc0t
                  (by rw [hrc0n]; rfl)
                  (minted_nil rb.counter)
                  trivial
                  ⟨Pobj, by
                    rw [resolveRef_congr rb rc0 sp hrc0t hrc0c]
                    exact hresSP⟩
                  (by simpa using hB)
                  hrl
              cases hrt : retagLoop none accF t5 r5 with
              | mk resRT rt2 =>
                cases rt2 with
                | mk r6 t6 =>
                  cases resRT with
                  | error e =>
                      simp only [fstep_none, hco, hrl, hrt] at htb
                      exact absurd htb (by simp)
                  | ok u2 =>
                    cases u2
                    obtain ⟨hcom6, hbr6, hhb6, hcnt6, htags6Q⟩ :=
                      retagLoop_ok_shape
                        (fun n => ∀ i, i < B' →
                          ¬ n = hashStr (rb.counter + i))
                        accF t5 r5 r6 t6 hrt
                        (by
                          intro t3 h3 i hi
                          exact hft i hi t3 (htags5 ▸ h3))
                        (by
                          intro p hp i hi
                          rcases hacc5 p hp with hin | ⟨sr, hsr, th, tm, hEq⟩
                          · exact absurd hin (List.not_mem_nil p)
                          · exact hft i hi p.1 (hProv sr hsr p.1 th tm hEq))
                    have hcom6b : r6.commits = M' ++ rb.commits :=
                      hcom6.trans hcom5
                    have htags6b : ∀ t3 ∈ r6.tags, ∀ i, i < B' →
                        ¬ t3.name = hashStr (rb.counter + i) := htags6Q
                    have hTopRes : ∃ ob, resolveRef r6 headF =
                        some (topKey P M', ob) := by
                      by_cases hNHe : NH = []
                      · subst hNHe
                        have hMnil : M' = [] := by
                          have h0 := hlen5
                          simp only [List.length_nil, Nat.add_zero,
                            Nat.zero_add] at h0
                          exact List.length_eq_zero.mp h0
                        subst hMnil
                        have hra : replayLoop none
                            ([] : List ShowResult) sp [] 1 rc0 =
                            (Except.ok (sp, ([] : List (TagObj × String))),
                              rc0, 1) := rfl
                        rw [hra] at hrl
                        injection hrl with h1 h2
                        injection h1 with h1
                        injection h1 with hhf hacce
                        injection h2 with hr5 ht5
                        subst hacce
                        have hrteq : retagLoop none
                            ([] : List (TagObj × String)) t5 r5 =
                            (.ok (), r5, t5) := rfl
                        rw [hrteq] at hrt
                        injection hrt with h3 h4
                        injection h4 with h56 ht6
                        refine ⟨Pobj, ?_⟩
                        rw [← hhf]
                        show resolveRef r6 sp = some (P, Pobj)
                        rw [← h56, ← hr5]
                        rw [resolveRef_congr rb rc0 sp hrc0t hrc0c]
                        exact hresSP
                      · rcases hAB with ⟨hNHnil, _, _⟩ | hheadF
                        · exact absurd hNHnil hNHe
                        · cases hM : M' with
                          | nil =>
                              rw [hM] at hlen5
                              simp only [List.length_nil, Nat.zero_add]
                                at hlen5
                              exact absurd (List.length_eq_zero.mp
                                hlen5.symm) hNHe
                          | cons topE M2 =>
                              obtain ⟨htopk, hM2⟩ :=
                                minted_head rb.counter topE.1 topE.2 M2
                                  (hM ▸ hM5)
                              have hfind : r6.tags.find?
                                  (fun tg => tg.name = topE.1) = none := by
                                rw [List.find?_eq_none]
                                intro x hx
                                simp only [decide_eq_true_eq]
                                intro hctr
                                have hlenM2 : M2.length < B' := by
                                  have hl := hlen5
                                  rw [hM] at hl
                                  simp only [List.length_cons,
                                    List.length_nil, Nat.zero_add] at hl
                                  omega
                                exact htags6b x hx M2.length hlenM2
                                  (hctr.trans htopk)
                              refine ⟨topE.2, ?_⟩
                              rw [hheadF, hM]
                              show resolveRef r6 topE.1 = some (topE.1, topE.2)
                              refine resolveRef_fresh r6 topE.1 topE.2
                                (M2 ++ rb.commits) ?_ ?_
                              · rw [hcom6b, hM]
                                simp
                              · exact hfind
                    obtain ⟨TPo, hTopRes⟩ := hTopRes
                    cases hfz : finalizePhase none headF t6 r6 with
                    | mk resFZ fz2 =>
                      cases fz2 with
                      | mk rfz tfz =>
                        cases resFZ with
                        | error e =>
                            simp only [fstep_none, hco, hrl, hrt, hfz] at htb
                            exact absurd htb (by simp)
                        | ok hF2 =>
                            simp only [fstep_none, hco, hrl, hrt, hfz,
                              Prod.mk.injEq, Except.ok.injEq] at htb
                            obtain ⟨hhF, hr7⟩ := htb
                            subst hhF
                            subst hr7
                            -- thread the finalize phase to its last checkout
                            have hfzfacts : ∃ rX,
                                rX.commits = r6.commits ∧ rX.tags = r6.tags ∧
                                gitCheckoutBranch rX "gsb" (some headF) =
                                  (.ok (), rfz) := by
                              unfold finalizePhase at hfz
                              cases hgd : gitDeleteBranch r6 "gsb" with
                              | mk resGD rgd =>
                                have hgdp := gitDeleteBranch_snd r6 "gsb"
                                have hgdeq : (gitDeleteBranch r6 "gsb").2 =
                                    rgd := by rw [hgd]
                                rw [hgdeq] at hgdp
                                cases resGD with
                                | ok u3 =>
                                    cases u3
                                    cases hck : gitCheckoutBranch rgd "gsb"
                                        (some headF) with
                                    | mk resCK rck =>
                                      cases resCK with
                                      | error e =>
                                          simp only [fstep_none, hgd, hck]
                                            at hfz
                                          exact absurd hfz (by simp)
                                      | ok u4 =>
                                          cases u4
                                          simp only [fstep_none, hgd, hck,
                                            Prod.mk.injEq] at hfz
                                          refine ⟨rgd, hgdp.1, hgdp.2.1, ?_⟩
                                          rw [hck, hfz.2.1]
                                | error e =>
                                    by_cases hVE : e.isValueError = true
                                    · simp only [fstep_none, hgd, hVE,
                                        if_true] at hfz
                                      cases hcn : gitCheckoutBranch rgd "gsb"
                                          none with
                                      | mk resCN rcn =>
                                        have hcnp :=
                                          gitCheckoutBranch_none_snd rgd "gsb"
                                        have hcneq :
                                            (gitCheckoutBranch rgd "gsb"
                                              none).2 = rcn := by rw [hcn]
                                        rw [hcneq] at hcnp
                                        cases resCN with
                                        | error e2 =>
                                            simp only [fstep_none, hcn] at hfz
                                            exact absurd hfz (by simp)
                                        | ok u5 =>
                                          cases u5
                                          cases hck : gitCheckoutBranch rcn
                                              "gsb" (some headF) with
                                          | mk resCK rck =>
                                            cases resCK with
                                            | error e2 =>
                                                simp only [fstep_none, hcn,
                                                  hck] at hfz
                                                exact absurd hfz (by simp)
                                            | ok u6 =>
                                                cases u6
                                                simp only [fstep_none, hcn,
                                                  hck, Prod.mk.injEq] at hfz
                                                refine ⟨rcn,
                                                  hcnp.1.trans hgdp.1,
                                                  hcnp.2.1.trans hgdp.2.1, ?_⟩
                                                rw [hck, hfz.2.1]
                                    · simp only [fstep_none, hgd, hVE,
                                        Bool.false_eq_true, if_false] at hfz
                                      exact absurd hfz (by simp)
                            obtain ⟨rX, hrXc, hrXt, hckX⟩ := hfzfacts
                            obtain ⟨eH, hresH, hrfz⟩ :=
                              gitCheckoutBranch_some_ok rX "gsb" headF rfz hckX
                            have heH : eH = (topKey P M', TPo) := by
                              rw [resolveRef_congr r6 rX headF hrXt hrXc,
                                hTopRes] at hresH
                              exact (Option.some.inj hresH).symm
                            subst heH
                            -- the final checkout of the finally suite
                            have hbt7 : rfz.branchTarget "gsb" =
                                some (topKey P M') := by
                              rw [hrfz]
                              exact setBranch_target_self rX "gsb" _
                            have hcom7 : rfz.commits = M' ++ rb.commits := by
                              rw [hrfz]
                              show rX.commits = _
                              rw [hrXc, hcom6b]
                            unfold rewriteFinally at hfin
                            cases hcat : rfz.commitAt (topKey P M') with
                            | none =>
                                have hcfail : gitCheckoutBranch rfz "gsb"
                                    none = (.error (.osError
                                      "corrupt repository"), rfz) := by
                                  unfold gitCheckoutBranch
                                  simp only [hbt7, hcat]
                                simp only [hcfail] at hfin
                                exact absurd hfin (by simp)
                            | some cT =>
                                have hcok := gitCheckoutBranch_none_existing
                                  rfz "gsb" (topKey P M') cT hbt7 hcat
                                simp only [hcok] at hfin
                                cases hc2 : gitDeleteBranch
                                    ({ rfz with
                                       headBranch := "gsb",
                                       worktree := cT.tree,
                                       index := cT.tree } : Repo)
                                    (tempBranchName rb) with
                                | mk resDB rdel =>
                                  cases resDB with
                                  | error e2 =>
                                      simp only [hc2] at hfin
                                      exact absurd hfin (by simp)
                                  | ok u7 =>
                                      cases u7
                                      have hdel := gitDeleteBranch_ok_shape
                                        ({ rfz with
                                           headBranch := "gsb",
                                           worktree := cT.tree,
                                           index := cT.tree } : Repo)
                                        (tempBranchName rb) rdel hc2
                                      simp only [hc2, Prod.mk.injEq,
                                        Except.ok.injEq] at hfin
                                      have hr1 : rdel = r1 := hfin.2
                                      subst hr1
                                      -- final state facts
                                      have hgne : ¬ ("gsb" : String) =
                                          tempBranchName rb :=
                                        fun h => tempBranchName_ne_gsb rb
                                          h.symm
                                      have hbrfz : rfz.branches =
                                          ("gsb", topKey P M') ::
                                            rX.branches.filter
                                              (fun e => ¬ e.1 = "gsb") := by
                                        rw [hrfz]
                                        rfl
                                      have hht1 : rdel.headTarget =
                                          some (topKey P M') := by
                                        rw [hdel]
                                        show (List.find?
                                          (fun e => e.1 = "gsb")
                                          (List.filter
                                            (fun e => ¬ e.1 =
                                              tempBranchName rb)
                                            rfz.branches)).map
                                          (fun e => e.2) = some (topKey P M')
                                        rw [hbrfz]
                                        simp [hgne, List.filter_cons,
                                          List.find?_cons]
                                      have hcom1 : rdel.commits =
                                          M' ++ rb.commits := by
                                        rw [hdel]
                                        show rfz.commits = _
                                        exact hcom7
                                      have hlenNH : M'.length = NH.length := by
                                        rw [hlen5]
                                        simp
                                      -- and the walk of the final state
                                      unfold gitLog
                                      rw [hcom1, hht1]
                                      have hlink := chainFrom_linked
                                        rb.commits P rb.counter B'
                                        hfk hfp hfd hPm M' hM5 hL5
                                        (by rw [hlenNH]; exact hB)
                                      rw [hlink]
                                      rw [List.length_append, hchainP, hlenNH]

/-- C6: for every timeline (well-formed: fresh mints are globally new, the
walk is acyclic and every full-history identifier resolves to its own walk
entry) and every successful `delete_backups(targets)`, the length of
`get_history(tagged_only=false, include_non_gsb=true)` decreases by exactly
the size of the target set, excluding the synthetic uncommitted-changes
snapshot if one was created. -/
theorem deleteBackups_shrinks_history
    (r0 rb r1 : Repo) (targets : List String) (resStr : String)
    (snapOpt : Option ShowResult) (headBound : Option String)
    (hsnap : snapshotPhase r0 = (.ok (snapOpt, headBound), rb))
    (H1 : ∀ i, i < (getHistory r0 false true (-1) 0 false).length + 1 →
      ∀ c ∈ r0.commits, ¬ c.1 = hashStr (r0.counter + i))
    (H2 : ∀ i, i < (getHistory r0 false true (-1) 0 false).length + 1 →
      ∀ c ∈ r0.commits, ¬ c.2.parent = some (hashStr (r0.counter + i)))
    (H2b : ∀ i, i < (getHistory r0 false true (-1) 0 false).length + 1 →
      ¬ r0.headTarget = some (hashStr (r0.counter + i)))
    (H3 : ∀ i, i < (getHistory r0 false true (-1) 0 false).length + 1 →
      ∀ t ∈ r0.tags, ¬ t.name = hashStr (r0.counter + i))
    (H4 : ∀ i j, i < (getHistory r0 false true (-1) 0 false).length + 1 →
      j < (getHistory r0 false true (-1) 0 false).length + 1 → ¬ i = j →
      ¬ hashStr (r0.counter + i) = hashStr (r0.counter + j))
    (H5 : ∀ j, j < (getHistory r0 false true (-1) 0 false).length →
      resolveRef r0 (((getHistory r0 false true (-1) 0 false).getD j
        default).identifier) = some ((gitLog r0).getD j dE))
    (H6 : ∀ j, j < (getHistory r0 false true (-1) 0 false).length →
      ¬ charsPfx (((getHistory r0 false true (-1) 0 false).getD j
        default).identifier).data (hashStr r0.counter).data = true)
    (H7 : (gitLog r0).length ≤ r0.commits.length)
    (hrun : deleteBackups none r0 targets = (.ok resStr, r1)) :
    (getHistory r1 false true (-1) 0 false).length + targets.dedup.length =
      (getHistory r0 false true (-1) 0 false).length +
        snapOpt.toList.length := by
  have hAR : (getHistory r0 false true (-1) 0 false).length =
      (gitLog r0).length := by
    rw [getHistory_all]
    exact List.length_map _ _
  unfold deleteBackups at hrun
  cases hdl : delLoop (getHistory r0 false true (-1) 0 false)
      (getHistory r0 false true (-1) 0 false).reverse 0 targets.dedup [] with
  | error e =>
      simp only [hdl] at hrun
      exact absurd hrun (by simp)
  | ok p =>
    cases p with
    | mk nf keep =>
      simp only [hdl] at hrun
      cases nf with
      | cons a nfr =>
          simp only [List.isEmpty_cons, Bool.false_eq_true, if_false] at hrun
          exact absurd hrun (by simp)
      | nil =>
        simp only [List.isEmpty_nil, if_true] at hrun
        cases keep with
        | nil => exact absurd hrun (by simp)
        | cons sp revs =>
          have hrw : rewriteHistory none r0 sp revs = (.ok resStr, r1) := hrun
          obtain ⟨i0, _, hi0ne, hi0lt, hsp, hcount⟩ :=
            delLoop_first_match (getHistory r0 false true (-1) 0 false)
              (getHistory r0 false true (-1) 0 false).reverse 0
              targets.dedup [] sp revs hdl
          simp only [List.length_cons, List.length_nil] at hcount
          have hrevlen : (getHistory r0 false true (-1) 0
              false).reverse.length =
              (getHistory r0 false true (-1) 0 false).length :=
            List.length_reverse _
          have hj0 : (getHistory r0 false true (-1) 0 false).length - i0 <
              (gitLog r0).length := by omega
          obtain ⟨Ppair, hPdef⟩ : ∃ pp : String × CommitObj,
              (gitLog r0).getD
                ((getHistory r0 false true (-1) 0 false).length - i0) dE =
                pp := ⟨_, rfl⟩
          have hlog : gitLog r0 =
              chainFrom r0.commits r0.headTarget (r0.commits.length + 1) :=
            rfl
          have hres0 : resolveRef r0 sp = some Ppair := by
            rw [hsp]
            have h5 := H5 ((getHistory r0 false true (-1) 0 false).length -
              i0) (by omega)
            rw [hPdef] at h5
            exact h5
          have hPmem : Ppair ∈ r0.commits := by
            have hm0 : Ppair ∈ gitLog r0 := by
              rw [← hPdef]
              rw [List.getD_eq_getElem (gitLog r0) dE hj0]
              exact List.getElem_mem hj0
            rw [hlog] at hm0
            exact chainFrom_subset r0.commits (r0.commits.length + 1)
              r0.headTarget Ppair hm0
          obtain ⟨MS, hMSc, hMSm, hMSn, hMSt, hMSl, hMSsl, hMSp, hMSprov⟩ :=
            snapshotPhase_ok_shape r0 snapOpt headBound rb hsnap
          -- the suffix of the walk that starts at the branch point
          have hsfx := chainFrom_suffix r0.commits (r0.commits.length + 1)
            r0.headTarget
            ((getHistory r0 false true (-1) 0 false).length - i0)
            (by rw [← hlog]; exact hj0)
          rw [← hlog] at hsfx
          rw [hPdef] at hsfx
          have hi0len : (chainFrom r0.commits (some Ppair.1)
              ((r0.commits.length + 1) -
                ((getHistory r0 false true (-1) 0 false).length - i0))).length
              = i0 := by
            rw [hsfx, List.length_drop]
            omega
          have hlt : (chainFrom r0.commits (some Ppair.1)
              ((r0.commits.length + 1) -
                ((getHistory r0 false true (-1) 0 false).length -
                  i0))).length <
              (r0.commits.length + 1) -
                ((getHistory r0 false true (-1) 0 false).length - i0) := by
            rw [hsfx, List.length_drop]
            omega
          have hmono : ∀ F, (r0.commits.length + 1) -
              ((getHistory r0 false true (-1) 0 false).length - i0) ≤ F →
              chainFrom r0.commits (some Ppair.1) F =
              chainFrom r0.commits (some Ppair.1)
                ((r0.commits.length + 1) -
                  ((getHistory r0 false true (-1) 0 false).length - i0)) :=
            fun F hF => chainFrom_mono r0.commits
              ((r0.commits.length + 1) -
                ((getHistory r0 false true (-1) 0 false).length - i0))
              (some Ppair.1) F hF hlt
          -- translate the freshness package to the snapshotted repo
          have hfk' : ∀ i, i <
              (getHistory r0 false true (-1) 0 false).length + 1 -
                MS.length →
              ∀ c ∈ rb.commits, ¬ c.1 = hashStr (rb.counter + i) := by
            intro i hi c hc
            rw [hMSn, Nat.add_assoc]
            rw [hMSc] at hc
            rcases List.mem_append.mp hc with hcm | hcm
            · obtain ⟨k, hk, hkey⟩ := minted_mem r0.counter MS hMSm c hcm
              intro hctr
              rw [hkey] at hctr
              exact H4 k (MS.length + i) (by omega) (by omega) (by omega)
                hctr
            · exact H1 (MS.length + i) (by omega) c hcm
          have hfp' : ∀ i, i <
              (getHistory r0 false true (-1) 0 false).length + 1 -
                MS.length →
              ∀ c ∈ rb.commits,
                ¬ c.2.parent = some (hashStr (rb.counter + i)) := by
            intro i hi c hc
            rw [hMSn, Nat.add_assoc]
            rw [hMSc] at hc
            rcases List.mem_append.mp hc with hcm | hcm
            · rw [hMSp c hcm]
              exact H2b (MS.length + i) (by omega)
            · exact H2 (MS.length + i) (by omega) c hcm
          have hfd' : ∀ i j, i <
              (getHistory r0 false true (-1) 0 false).length + 1 -
                MS.length →
              j < (getHistory r0 false true (-1) 0 false).length + 1 -
                MS.length → ¬ i = j →
              ¬ hashStr (rb.counter + i) = hashStr (rb.counter + j) := by
            intro i j hi hj hij
            rw [hMSn, Nat.add_assoc, Nat.add_assoc]
            exact H4 (MS.length + i) (MS.length + j) (by omega) (by omega)
              (by omega)
          have hft' : ∀ i, i <
              (getHistory r0 false true (-1) 0 false).length + 1 -
                MS.length →
              ∀ t ∈ rb.tags, ¬ t.name = hashStr (rb.counter + i) := by
            intro i hi t htm
            rw [hMSn, Nat.add_assoc]
            rw [hMSt] at htm
            exact H3 (MS.length + i) (by omega) t htm
          have hPm' : ∀ i, i <
              (getHistory r0 false true (-1) 0 false).length + 1 -
                MS.length →
              ¬ Ppair.1 = hashStr (rb.counter + i) := by
            intro i hi
            rw [hMSn, Nat.add_assoc]
            exact H1 (MS.length + i) (by omega) Ppair hPmem
          -- resolution of the branch point and its chain length at rb
          have hrbres : resolveRef rb sp = some Ppair ∧
              (chainFrom rb.commits (some Ppair.1)
                (rb.commits.length + 1)).length = i0 := by
            cases MS with
            | nil =>
                have hrbc : rb.commits = r0.commits := by simpa using hMSc
                constructor
                · rw [resolveRef_congr r0 rb sp hMSt hrbc]
                  exact hres0
                · rw [hrbc]
                  rw [hmono (r0.commits.length + 1) (by omega)]
                  exact hi0len
            | cons m0 MS2 =>
              cases MS2 with
              | cons m1 MS3 => simp at hMSl
              | nil =>
                cases m0 with
                | mk mk0 mo0 =>
                  obtain ⟨hm0k, _⟩ := minted_head r0.counter mk0 mo0 [] hMSm
                  simp only [List.length_nil, Nat.add_zero] at hm0k
                  have hc : rb.commits = (mk0, mo0) :: r0.commits := by
                    rw [hMSc]
                    rfl
                  have hfk0 : ∀ c ∈ r0.commits, ¬ c.1 = mk0 := by
                    intro c hcm
                    rw [hm0k]
                    have h1 := H1 0 (by omega) c hcm
                    simpa using h1
                  have hfp0 : ∀ c ∈ r0.commits,
                      ¬ c.2.parent = some mk0 := by
                    intro c hcm
                    rw [hm0k]
                    have h2 := H2 0 (by omega) c hcm
                    simpa using h2
                  have hnp : ¬ charsPfx sp.data mk0.data = true := by
                    rw [hm0k, hsp]
                    exact H6 ((getHistory r0 false true (-1) 0
                      false).length - i0) (by omega)
                  have hxne : ¬ (some Ppair.1 : Option String) =
                      some mk0 := by
                    intro hEq
                    have hP := Option.some.inj hEq
                    rw [hm0k] at hP
                    have h1 := H1 0 (by omega) Ppair hPmem
                    simp only [Nat.add_zero] at h1
                    exact h1 hP
                  constructor
                  · exact resolveRef_prepend r0 rb mk0 mo0 sp Ppair hc
                      hMSt hfk0 hnp hres0
                  · rw [hc]
                    rw [chainFrom_prepend r0.commits mk0 mo0 hfk0 hfp0
                      (((mk0, mo0) :: r0.commits).length + 1)
                      (some Ppair.1) hxne]
                    rw [hmono (((mk0, mo0) :: r0.commits).length + 1)
                      (by simp only [List.length_cons]; omega)]
                    exact hi0len
          -- thread the rewrite engine
          unfold rewriteHistory at hrw
          cases hsh : gitShow r0 sp with
          | error e =>
              simp only [hsh] at hrw
              exact absurd hrw (by simp)
          | ok sr0 =>
            simp only [hsh] at hrw
            cases hsa : showAll r0 revs with
            | error e =>
                simp only [hsa] at hrw
                exact absurd hrw (by simp)
            | ok newHist0 =>
              simp only [hsa] at hrw
              obtain ⟨hNHlen0, hNHprov0⟩ := showAll_ok r0 revs newHist0 hsa
              have hfinal : (getHistory r1 false true (-1) 0 false).length =
                  (gitLog r1).length := by
                rw [getHistory_all]
                exact List.length_map _ _
              cases snapOpt with
              | none =>
                  simp only [hsnap] at hrw
                  cases htb : rewriteTryBody none sp newHist0
                      (tempBranchName rb) headBound rb with
                  | mk resTB r7 =>
                    simp only [htb] at hrw
                    cases resTB with
                    | error pr =>
                        cases pr with
                        | mk e ho =>
                            obtain ⟨e2, r2, hh⟩ :=
                              rewriteHandler_error e ho (tempBranchName rb) r7
                            have hrw2 : rewriteHandler e ho
                                (tempBranchName rb) r7 =
                                (.ok resStr, r1) := hrw
                            rw [hh] at hrw2
                            exact absurd hrw2 (by simp)
                    | ok hF =>
                        have hrw2 : rewriteFinally (.ok hF)
                            (tempBranchName rb) r7 =
                            (.ok resStr, r1) := hrw
                        have hlen1 := rewrite_tail_length rb r7 r1 newHist0
                          sp hF resStr headBound Ppair.1 Ppair.2
                          ((getHistory r0 false true (-1) 0 false).length +
                            1 - MS.length) i0
                          (by omega)
                          hfk' hfp' hfd' hft' hPm'
                          hrbres.1
                          (fun sr hsr tg th tm hEq =>
                            hMSt.symm ▸ hNHprov0 sr hsr tg th tm hEq)
                          hrbres.2 htb hrw2
                        rw [hfinal, hlen1]
                        simp only [Option.toList_none, List.length_nil]
                        omega
              | some srS =>
                  simp only [hsnap] at hrw
                  simp only [Option.toList_some, List.length_cons,
                    List.length_nil] at hMSsl
                  cases htb : rewriteTryBody none sp (newHist0 ++ [srS])
                      (tempBranchName rb) headBound rb with
                  | mk resTB r7 =>
                    simp only [htb] at hrw
                    cases resTB with
                    | error pr =>
                        cases pr with
                        | mk e ho =>
                            obtain ⟨e2, r2, hh⟩ :=
                              rewriteHandler_error e ho (tempBranchName rb) r7
                            have hrw2 : rewriteHandler e ho
                                (tempBranchName rb) r7 =
                                (.ok resStr, r1) := hrw
                            rw [hh] at hrw2
                            exact absurd hrw2 (by simp)
                    | ok hF =>
                        have hrw2 : rewriteFinally (.ok hF)
                            (tempBranchName rb) r7 =
                            (.ok resStr, r1) := hrw
                        have hlen1 := rewrite_tail_length rb r7 r1
                          (newHist0 ++ [srS])
                          sp hF resStr headBound Ppair.1 Ppair.2
                          ((getHistory r0 false true (-1) 0 false).length +
                            1 - MS.length) i0
                          (by
                            simp only [List.length_append, List.length_cons,
                              List.length_nil]
                            omega)
                          hfk' hfp' hfd' hft' hPm'
                          hrbres.1
                          (by
                            intro sr hsr tg th tm hEq
                            rcases List.mem_append.mp hsr with h1 | h1
                            · exact hMSt.symm ▸
                                hNHprov0 sr h1 tg th tm hEq
                            · have hse : sr = srS := by simpa using h1
                              subst hse
                              exact hMSt.symm ▸
                                hMSprov sr tg th tm rfl hEq)
                          hrbres.2 htb hrw2
                        rw [hfinal, hlen1]
                        simp only [Option.toList_some, List.length_append,
                          List.length_cons, List.length_nil]
                        omega

set_option maxRecDepth 1000000 in
set_option maxHeartbeats 1000000 in
/-- Concrete run of the C6 theorem: deleting "v2" from the demo timeline
shrinks the full unmanaged-inclusive history from 5 revisions to 4, with no
uncommitted-changes snapshot taken. -/
theorem deleteBackups_shrinks_history_witness :
    (getHistory ((deleteBackups none demo ["v2"]).2) false true (-1) 0
        false).length + (["v2"] : List String).dedup.length =
      (getHistory demo false true (-1) 0 false).length +
        (none : Option ShowResult).toList.length :=
  deleteBackups_shrinks_history demo demo
    ((deleteBackups none demo ["v2"]).2) ["v2"]
    "gaaaaaaaffffffffffffffffffffffffffffffff" none none
    rfl
    (by decide) (by decide) (by decide) (by decide)
    (fun i j hi hj hij =>
      (by decide : ∀ i, i < (getHistory demo false true (-1) 0
          false).length + 1 →
        ∀ j, j < (getHistory demo false true (-1) 0 false).length + 1 →
        ¬ i = j →
        ¬ hashStr (demo.counter + i) = hashStr (demo.counter + j))
        i hi j hj hij)
    (by decide) (by decide) (by decide)
    rfl

end Gsb
